import Mathlib

/-!
Verification development for an arbitrary-precision integer library (unsigned
UBI and signed SBI big integers). The library core is modelled here following
the system specification; the conformance-test reference algorithms and literal
expectations are translated from the test crates. Machine words are Nat values
below 2 to the 32, digit vectors are little-endian lists, and signed values are
sign-magnitude pairs.
-/

/- ===== Floor division and floor modulo groundwork =====
The modular-arithmetic module reduces by floor modulo: the remainder of floor
division, carrying the sign of a nonzero divisor. Int.fmod is exactly that
operation; the lemmas below characterise it through the euclidean emod. -/

theorem fmodEmod (a m : Int) : a.fmod m % m = a % m := by
  rw [Int.fmod_def]
  have h : a - m * a.fdiv m = a + m * (-(a.fdiv m)) := by ring
  rw [h, Int.add_mul_emod_self_left]

theorem fmodNegsucc : ∀ (a : Int) (n : Nat),
    a.fmod (Int.negSucc n) = -((-a).fmod (Int.ofNat (n + 1)))
  | Int.ofNat 0, n => by
    show (0 : Int).fmod _ = -((-(0 : Int)).fmod _)
    simp
  | Int.ofNat (k + 1), n => by
    show Int.subNatNat (k % (n + 1)) n = -((Int.negSucc k).fmod (Int.ofNat (n + 1)))
    show Int.subNatNat (k % (n + 1)) n = -(Int.subNatNat (n + 1) (Nat.succ (k % (n + 1))))
    rw [Int.subNatNat_eq_coe, Int.subNatNat_eq_coe]
    have hb : k % (n + 1) < n + 1 := Nat.mod_lt _ (Nat.succ_pos n)
    push_cast
    omega
  | Int.negSucc k, n => by
    show -(Int.ofNat ((k + 1) % (n + 1))) = -((Int.ofNat (k + 1)).fmod (Int.ofNat (n + 1)))
    rfl

theorem negEmodIte (a p : Int) (hp : 0 < p) :
    (-a) % p = if a % p = 0 then 0 else p - a % p := by
  have h1 : (-a) % p = (-a + p * (a / p + 1)) % p :=
    (Int.add_mul_emod_self_left (-a) p (a / p + 1)).symm
  have h2 : -a + p * (a / p + 1) = p - a % p := by
    rw [Int.emod_def]
    ring
  rw [h1, h2]
  by_cases hz : a % p = 0
  · rw [hz, if_pos rfl, Int.sub_zero, Int.emod_self]
  · rw [if_neg hz]
    have hnn : 0 ≤ a % p := Int.emod_nonneg a (by omega)
    have hlt : a % p < p := Int.emod_lt_of_pos a hp
    exact Int.emod_eq_of_lt (by omega) (by omega)

theorem fmod_eq_emod_ite (a m : Int) :
    a.fmod m = if 0 ≤ m ∨ a % m = 0 then a % m else a % m + m := by
  rcases le_or_lt 0 m with hm | hm
  · rw [Int.fmod_eq_emod a hm, if_pos (Or.inl hm)]
  · cases m with
    | ofNat j =>
      rw [Int.ofNat_eq_coe] at hm
      omega
    | negSucc n =>
      have hp : (0 : Int) < (n : Int) + 1 := by omega
      have hneg : Int.negSucc n = -((n : Int) + 1) := rfl
      have hmod : a % Int.negSucc n = a % ((n : Int) + 1) := by
        rw [hneg, Int.emod_neg]
      have hfn : a.fmod (Int.negSucc n) = -((-a).fmod ((n : Int) + 1)) := fmodNegsucc a n
      rw [hfn, Int.fmod_eq_emod _ (le_of_lt hp), negEmodIte a _ hp, hmod, hneg]
      have hnn : 0 ≤ a % ((n : Int) + 1) := Int.emod_nonneg a (by omega)
      have hlt : a % ((n : Int) + 1) < (n : Int) + 1 := Int.emod_lt_of_pos a hp
      split_ifs <;> omega

theorem fmodBoundsNeg (a : Int) {m : Int} (hm : m < 0) :
    m < a.fmod m ∧ a.fmod m ≤ 0 := by
  rw [fmod_eq_emod_ite]
  have hnn : 0 ≤ a % m := Int.emod_nonneg a (by omega)
  have hlt : a % m < -m := by
    have h := Int.emod_lt_of_pos a (b := -m) (by omega)
    rwa [Int.emod_neg] at h
  by_cases hz : a % m = 0
  · rw [if_pos (Or.inr hz)]
    omega
  · rw [if_neg (by omega)]
    omega

theorem fmodCongr {a b : Int} (m : Int) (h : a % m = b % m) : a.fmod m = b.fmod m := by
  rw [fmod_eq_emod_ite, fmod_eq_emod_ite, h]

theorem fmodMulLeft (a b m : Int) : (a.fmod m * b).fmod m = (a * b).fmod m := by
  refine fmodCongr m ?_
  rw [Int.mul_emod, fmodEmod, ← Int.mul_emod]

theorem fmodMulRight (a b m : Int) : (a * b.fmod m).fmod m = (a * b).fmod m := by
  refine fmodCongr m ?_
  rw [Int.mul_emod, fmodEmod, ← Int.mul_emod]

theorem fmodPosBounds (a : Int) {m : Int} (hm : 0 < m) : 0 ≤ a.fmod m ∧ a.fmod m < m :=
  ⟨Int.fmod_nonneg' a hm, Int.fmod_lt_of_pos a hm⟩

/- ===== Modular arithmetic module: modular exponentiation ===== -/

/-- Modelled from the spec: floor modulo (the mod_floor operation of the
numeric facade used by the signed type, absent from the visible sources). It is
the remainder of floor division and carries the sign of a nonzero divisor. -/
def mod_floor (a m : Int) : Int := a.fmod m

/-- Little-endian bit decomposition of a natural number; the first argument is
recursion fuel, kept at least the number itself. -/
def natBitsAux : Nat → Nat → List Bool
  | 0, _ => []
  | fuel + 1, n => if n = 0 then [] else (decide (n % 2 = 1)) :: natBitsAux fuel (n / 2)

def natBits (n : Nat) : List Bool := natBitsAux n n

def bitsVal : List Bool → Nat
  | [] => 0
  | false :: bs => 2 * bitsVal bs
  | true :: bs => 1 + 2 * bitsVal bs

/-- One square-and-multiply step: multiply the accumulator by the running base
on a set bit, square the running base, reducing by floor modulo each time. -/
def modpowStep (modulus : Int) (st : Int × Int) (bit : Bool) : Int × Int :=
  (if bit then mod_floor (st.1 * st.2) modulus else st.1,
   mod_floor (st.2 * st.2) modulus)

/-- Modelled from the spec: modular exponentiation of the signed type (the
library modpow is absent from the visible sources). Computed by
square-and-multiply, iterating exponent bits from least to most significant,
reducing both the accumulator and the running base by floor modulo after each
multiplication. -/
def modpow (base : Int) (exponent : Nat) (modulus : Int) : Int :=
  ((natBits exponent).foldl (modpowStep modulus)
    (mod_floor 1 modulus, mod_floor base modulus)).1

/-- Loop of the reference algorithm, translated from the conformance test
simple_modpow of the quickcheck harness. -/
def simpleModpowGo (modulus : Int) : Nat → Int → Int → Nat → Int
  | 0, result, _, _ => result
  | fuel + 1, result, base, exponent =>
    if exponent = 0 then result
    else
      simpleModpowGo modulus fuel
        (if exponent % 2 = 1 then mod_floor (result * base) modulus else result)
        (mod_floor (base * base) modulus)
        (exponent / 2)

/-- Reference square-and-multiply modular exponentiation, translated from the
conformance test simple_modpow of the quickcheck harness. -/
def simple_modpow (base : Int) (exponent : Nat) (modulus : Int) : Int :=
  simpleModpowGo modulus exponent (mod_floor 1 modulus) (mod_floor base modulus) exponent

theorem bitsVal_natBitsAux : ∀ (fuel n : Nat), n ≤ fuel → bitsVal (natBitsAux fuel n) = n := by
  intro fuel
  induction fuel with
  | zero =>
    intro n hn
    have : n = 0 := Nat.le_zero.mp hn
    subst this
    rfl
  | succ f ih =>
    intro n hn
    by_cases h0 : n = 0
    · subst h0
      simp [natBitsAux, bitsVal]
    · rw [natBitsAux, if_neg h0]
      by_cases h2 : n % 2 = 1
      · rw [show decide (n % 2 = 1) = true by simp [h2], bitsVal, ih (n / 2) (by omega)]
        omega
      · rw [show decide (n % 2 = 1) = false by simp [h2], bitsVal, ih (n / 2) (by omega)]
        omega

theorem mod_floor_sq (b m : Int) :
    mod_floor (mod_floor b m * mod_floor b m) m = mod_floor (b * b) m := by
  simp only [mod_floor]
  rw [fmodMulLeft, fmodMulRight]

theorem mod_floor_mul2 (a b m : Int) :
    mod_floor (mod_floor a m * mod_floor b m) m = mod_floor (a * b) m := by
  simp only [mod_floor]
  rw [fmodMulLeft, fmodMulRight]

theorem modpowFold_spec (m : Int) :
    ∀ (l : List Bool) (a0 b0 : Int),
      (l.foldl (modpowStep m) (mod_floor a0 m, mod_floor b0 m)).1 =
        mod_floor (a0 * b0 ^ bitsVal l) m := by
  intro l
  induction l with
  | nil =>
    intro a0 b0
    show mod_floor a0 m = mod_floor (a0 * b0 ^ bitsVal []) m
    rw [bitsVal, pow_zero, mul_one]
  | cons bit rest ih =>
    intro a0 b0
    cases bit with
    | false =>
      have hstep : modpowStep m (mod_floor a0 m, mod_floor b0 m) false =
          (mod_floor a0 m, mod_floor (b0 * b0) m) := by
        simp [modpowStep, mod_floor_sq]
      rw [List.foldl_cons, hstep, ih, bitsVal]
      congr 1
      ring
    | true =>
      have hstep : modpowStep m (mod_floor a0 m, mod_floor b0 m) true =
          (mod_floor (a0 * b0) m, mod_floor (b0 * b0) m) := by
        simp [modpowStep, mod_floor_sq, mod_floor_mul2]
      rw [List.foldl_cons, hstep, ih, bitsVal]
      congr 1
      ring

theorem simpleModpowGo_spec (m : Int) :
    ∀ (fuel e : Nat) (a0 b0 : Int), e ≤ fuel →
      simpleModpowGo m fuel (mod_floor a0 m) (mod_floor b0 m) e =
        mod_floor (a0 * b0 ^ e) m := by
  intro fuel
  induction fuel with
  | zero =>
    intro e a0 b0 he
    have h0 : e = 0 := Nat.le_zero.mp he
    subst h0
    show mod_floor a0 m = mod_floor (a0 * b0 ^ 0) m
    rw [pow_zero, mul_one]
  | succ f ih =>
    intro e a0 b0 he
    by_cases h0 : e = 0
    · subst h0
      rw [simpleModpowGo, if_pos rfl, pow_zero, mul_one]
    · rw [simpleModpowGo, if_neg h0]
      by_cases h2 : e % 2 = 1
      · rw [if_pos h2, mod_floor_mul2, mod_floor_sq, ih (e / 2) (a0 * b0) (b0 * b0) (by omega)]
        congr 1
        obtain ⟨k, hk⟩ : ∃ k, e = 2 * k + 1 := ⟨e / 2, by omega⟩
        subst hk
        have h3 : (2 * k + 1) / 2 = k := by omega
        rw [h3]
        ring
      · rw [if_neg h2, mod_floor_sq, ih (e / 2) a0 (b0 * b0) (by omega)]
        congr 1
        obtain ⟨k, hk⟩ : ∃ k, e = 2 * k := ⟨e / 2, by omega⟩
        subst hk
        have h3 : 2 * k / 2 = k := by omega
        rw [h3]
        ring

theorem modpow_eq_pow_mod (b : Int) (e : Nat) (m : Int) :
    modpow b e m = mod_floor (b ^ e) m := by
  rw [modpow, natBits, modpowFold_spec m _ 1 b, bitsVal_natBitsAux e e (Nat.le_refl e), one_mul]

theorem simple_modpow_eq_pow_mod (b : Int) (e : Nat) (m : Int) :
    simple_modpow b e m = mod_floor (b ^ e) m := by
  rw [simple_modpow, simpleModpowGo_spec m e e 1 b (Nat.le_refl e), one_mul]

/-- C2: for every base, every non-negative exponent, and every nonzero modulus,
signed modular exponentiation modpow agrees with the reference
square-and-multiply algorithm simple_modpow that iterates exponent bits least
significant first and reduces by floor modulo after each multiplication, and
the result lies in the canonical representative range for the sign of the
modulus. -/
theorem modpow_matches_reference (base : Int) (exponent : Nat) (modulus : Int)
    (hm : modulus ≠ 0) :
    modpow base exponent modulus = simple_modpow base exponent modulus ∧
    (0 < modulus →
      0 ≤ modpow base exponent modulus ∧ modpow base exponent modulus < modulus) ∧
    (modulus < 0 →
      modulus < modpow base exponent modulus ∧ modpow base exponent modulus ≤ 0) := by
  refine ⟨?_, ?_, ?_⟩
  · rw [modpow_eq_pow_mod, simple_modpow_eq_pow_mod]
  · intro hpos
    rw [modpow_eq_pow_mod]
    exact fmodPosBounds _ hpos
  · intro hneg
    rw [modpow_eq_pow_mod]
    exact fmodBoundsNeg _ hneg

/-- Witness for C2: concrete instance at base 3, exponent 5, modulus 7. -/
theorem modpow_matches_reference_witness :
    modpow 3 5 7 = simple_modpow 3 5 7 ∧ 0 ≤ modpow 3 5 7 ∧ modpow 3 5 7 < 7 := by
  have h := modpow_matches_reference 3 5 7 (by decide)
  exact ⟨h.1, h.2.1 (by decide)⟩

example : modpow 3 5 7 = 5 := by decide

example : modpow (-4) 3 (-7) = -1 := by decide

/- ===== Modular arithmetic module: modular inverse ===== -/

/-- Extended euclidean loop. State is two rows (r, s, t) each satisfying
s * a + t * b = r; every step replaces the first row by the second and the
second by the remainder row. The first argument is recursion fuel. -/
def xgcdAux : Nat → Nat → Int → Int → Nat → Int → Int → Nat × Int × Int
  | 0, r0, s0, t0, _, _, _ => (r0, s0, t0)
  | fuel + 1, r0, s0, t0, r1, s1, t1 =>
    if r1 = 0 then (r0, s0, t0)
    else
      xgcdAux fuel r1 s1 t1 (r0 % r1)
        (s0 - (r0 / r1 : Nat) * s1) (t0 - (r0 / r1 : Nat) * t1)

/-- Extended euclidean algorithm on magnitudes: returns (g, s, t) with
s * a + t * b = g and g the greatest common divisor. -/
def xgcd (a b : Nat) : Nat × Int × Int := xgcdAux (b + 1) a 1 0 b 0 1

theorem xgcdAux_spec (a b : Int) :
    ∀ (fuel r0 : Nat) (s0 t0 : Int) (r1 : Nat) (s1 t1 : Int),
      r1 ≤ fuel →
      s0 * a + t0 * b = (r0 : Int) →
      s1 * a + t1 * b = (r1 : Int) →
      (xgcdAux fuel r0 s0 t0 r1 s1 t1).2.1 * a + (xgcdAux fuel r0 s0 t0 r1 s1 t1).2.2 * b =
          ((xgcdAux fuel r0 s0 t0 r1 s1 t1).1 : Int) ∧
        (xgcdAux fuel r0 s0 t0 r1 s1 t1).1 = Nat.gcd r0 r1 := by
  intro fuel
  induction fuel with
  | zero =>
    intro r0 s0 t0 r1 s1 t1 hle h0 h1
    have hz : r1 = 0 := Nat.le_zero.mp hle
    subst hz
    exact ⟨h0, (Nat.gcd_zero_right r0).symm⟩
  | succ f ih =>
    intro r0 s0 t0 r1 s1 t1 hle h0 h1
    by_cases hz : r1 = 0
    · subst hz
      rw [xgcdAux, if_pos rfl]
      exact ⟨h0, (Nat.gcd_zero_right r0).symm⟩
    · rw [xgcdAux, if_neg hz]
      have hmodcast : ((r0 % r1 : Nat) : Int) = (r0 : Int) - (r0 / r1 : Nat) * (r1 : Int) := by
        have hdm := Nat.mod_add_div r0 r1
        have hcast : ((r0 % r1 : Nat) : Int) + (r1 : Int) * ((r0 / r1 : Nat) : Int) = (r0 : Int) := by
          exact_mod_cast congrArg (fun x : Nat => (x : Int)) hdm
        linear_combination hcast
      have hrow2 : (s0 - (r0 / r1 : Nat) * s1) * a + (t0 - (r0 / r1 : Nat) * t1) * b =
          ((r0 % r1 : Nat) : Int) := by
        rw [hmodcast, ← h0, ← h1]
        ring
      have hmodlt : r0 % r1 ≤ f := by
        have := Nat.mod_lt r0 (Nat.pos_of_ne_zero hz)
        omega
      have hres := ih r1 s1 t1 (r0 % r1) _ _ hmodlt h1 hrow2
      refine ⟨hres.1, ?_⟩
      rw [hres.2]
      rw [Nat.gcd_comm r0 r1, Nat.gcd_rec r1 r0, Nat.gcd_comm (r0 % r1) r1]

/-- Modelled from the spec: modular inverse of the signed type (the library
modinv is absent from the visible sources). Computed via the extended euclidean
algorithm on the magnitudes; absence of an inverse is reported as none, and a
present inverse is reduced by floor modulo into the canonical range. -/
def modinv (value modulus : Int) : Option Int :=
  if modulus = 0 then none
  else
    if (xgcd value.natAbs modulus.natAbs).1 = 1 then
      some (mod_floor (value.sign * (xgcd value.natAbs modulus.natAbs).2.1) modulus)
    else none

theorem xgcd_spec (a b : Nat) :
    (xgcd a b).2.1 * (a : Int) + (xgcd a b).2.2 * (b : Int) = ((xgcd a b).1 : Int) ∧
      (xgcd a b).1 = Nat.gcd a b :=
  xgcdAux_spec (a : Int) (b : Int) (b + 1) a 1 0 b 0 1 (Nat.le_succ b)
    (by ring) (by ring)

/-- C3: for every value and nonzero modulus, modinv returns an inverse exactly
when gcd(value, modulus) = 1; a present inverse satisfies
value * inv congruent to 1 under floor modulo and lies in [0, modulus) for a
positive modulus or (modulus, 0] for a negative one; otherwise the result is
none, never an error. -/
theorem modinv_spec (v m : Int) (hm : m ≠ 0) :
    ((modinv v m).isSome = true ↔ Int.gcd v m = 1) ∧
    (∀ inv, modinv v m = some inv →
      mod_floor (v * inv) m = mod_floor 1 m ∧
      (0 < m → 0 ≤ inv ∧ inv < m) ∧
      (m < 0 → m < inv ∧ inv ≤ 0)) := by
  have hg := xgcd_spec v.natAbs m.natAbs
  have hgcd : (xgcd v.natAbs m.natAbs).1 = Int.gcd v m := hg.2
  constructor
  · rw [modinv, if_neg hm]
    by_cases h1 : (xgcd v.natAbs m.natAbs).1 = 1
    · rw [if_pos h1]
      simp only [Option.isSome_some, true_iff]
      rw [← hgcd, h1]
    · rw [if_neg h1]
      constructor
      · intro hcontra
        exact absurd hcontra (by simp)
      · intro hcontra
        rw [← hgcd] at hcontra
        exact absurd hcontra h1
  · intro inv hinv
    rw [modinv, if_neg hm] at hinv
    by_cases h1 : (xgcd v.natAbs m.natAbs).1 = 1
    · rw [if_pos h1] at hinv
      have hinv2 : inv = mod_floor (v.sign * (xgcd v.natAbs m.natAbs).2.1) m :=
        (Option.some.inj hinv).symm
      refine ⟨?_, ?_, ?_⟩
      · rw [hinv2, mod_floor, mod_floor, fmodMulRight]
        refine fmodCongr m ?_
        have hb : (xgcd v.natAbs m.natAbs).2.1 * (v.natAbs : Int) +
            (xgcd v.natAbs m.natAbs).2.2 * (m.natAbs : Int) = ((xgcd v.natAbs m.natAbs).1 : Int) :=
          hg.1
        rw [h1] at hb
        have hvs : v * (v.sign * (xgcd v.natAbs m.natAbs).2.1) =
            (v.natAbs : Int) * (xgcd v.natAbs m.natAbs).2.1 := by
          rw [← mul_assoc, Int.mul_sign]
        rw [hvs]
        have habs : ((v.natAbs : Int)) * (xgcd v.natAbs m.natAbs).2.1 =
            1 - (xgcd v.natAbs m.natAbs).2.2 * (m.natAbs : Int) := by
          linear_combination hb
        rw [habs]
        rcases Int.natAbs_eq m with he | he
        · have : (1 : Int) - (xgcd v.natAbs m.natAbs).2.2 * (m.natAbs : Int) =
              1 + m * (-(xgcd v.natAbs m.natAbs).2.2) := by
            rw [← he]
            ring
          rw [this, Int.add_mul_emod_self_left]
        · have : (1 : Int) - (xgcd v.natAbs m.natAbs).2.2 * (m.natAbs : Int) =
              1 + m * (xgcd v.natAbs m.natAbs).2.2 := by
            rw [show ((m.natAbs : Int)) = -m by omega]
            ring
          rw [this, Int.add_mul_emod_self_left]
      · intro hpos
        rw [hinv2]
        exact fmodPosBounds _ hpos
      · intro hneg
        rw [hinv2]
        exact fmodBoundsNeg _ hneg
    · rw [if_neg h1] at hinv
      exact absurd hinv (by simp)

/-- Witness for C3: the inverse of 3 modulo 7 exists and is 5. -/
theorem modinv_spec_witness :
    (modinv 3 7).isSome = true ∧
      mod_floor (3 * 5) 7 = mod_floor 1 7 ∧ 0 ≤ (5 : Int) ∧ (5 : Int) < 7 := by
  have h := modinv_spec 3 7 (by decide)
  have h5 : modinv 3 7 = some 5 := by decide
  have h2 := h.2 5 h5
  exact ⟨by rw [h5]; rfl, h2.1, h2.2.1 (by decide)⟩

example : modinv 4 6 = none := by decide

example : modinv 3 (-7) = some (-2) := by decide

/- ===== Signed arithmetic: right shift ===== -/

/-- Modelled from the spec: right shift of the signed type by k bits is an
arithmetic shift over the infinite-precision value, equal to floor division by
2 to the k (the library shift code is absent from the visible sources). -/
def shrSigned (a : Int) (k : Nat) : Int := a.fdiv (2 ^ k)

/-- Model of the native 64-bit signed right shift: the operand is viewed in
64-bit twos-complement form, the low bits are discarded, the sign bit is
copied into the vacated high bits, and the word is reinterpreted as signed. -/
def i64Shr (a : Int) (k : Nat) : Int :=
  let u := a % 2 ^ 64
  let sh := u / 2 ^ k + if 2 ^ 63 ≤ u then 2 ^ 64 - 2 ^ (64 - k) else 0
  if 2 ^ 63 ≤ sh then sh - 2 ^ 64 else sh

/-- C5: the arithmetic right shift of the signed big-integer type agrees with
the native 64-bit signed right shift on every value of a native 64-bit signed
integer and every shift amount below 64. -/
theorem shr_signed_matches_native (a : Int) (k : Nat)
    (hlo : -(2 ^ 63) ≤ a) (hhi : a < 2 ^ 63) (hk : k < 64) :
    shrSigned a k = i64Shr a k := by
  have hP : (0 : Int) < 2 ^ k := by positivity
  have hsplit : (2 : Int) ^ 64 = 2 ^ k * 2 ^ (64 - k) := by
    rw [← pow_add]
    congr 1
    omega
  have hfd : shrSigned a k = a / 2 ^ k := Int.fdiv_eq_ediv a (le_of_lt hP)
  rcases le_or_lt 0 a with hpos | hneg
  · have hu : a % 2 ^ 64 = a := by omega
    have hdle : a / 2 ^ k ≤ a := Int.ediv_le_self _ hpos
    have hdnn : 0 ≤ a / 2 ^ k := Int.ediv_nonneg hpos (le_of_lt hP)
    rw [hfd]
    simp only [i64Shr, hu]
    rw [if_neg (show ¬(2 : Int) ^ 63 ≤ a by omega), add_zero,
      if_neg (show ¬(2 : Int) ^ 63 ≤ a / 2 ^ k by omega)]
  · have hu : a % 2 ^ 64 = a + 2 ^ 64 := by omega
    have hq : (a + 2 ^ 64) / 2 ^ k = a / 2 ^ k + 2 ^ (64 - k) := by
      rw [hsplit, mul_comm ((2 : Int) ^ k) _, Int.add_mul_ediv_right a _ (by omega)]
    have hdge : -(2 ^ 63) ≤ a / 2 ^ k := by
      rw [Int.le_ediv_iff_mul_le hP]
      have h1 : -(2 ^ 63) * 2 ^ k ≤ -(2 ^ 63) * 1 := by
        apply mul_le_mul_of_nonpos_left _ (by norm_num)
        omega
      omega
    have hexp : (0 : Int) < 2 ^ (64 - k) := by positivity
    rw [hfd]
    simp only [i64Shr, hu]
    rw [if_pos (show (2 : Int) ^ 63 ≤ a + 2 ^ 64 by omega), hq,
      if_pos (show (2 : Int) ^ 63 ≤ a / 2 ^ k + 2 ^ (64 - k) + (2 ^ 64 - 2 ^ (64 - k)) by omega)]
    omega

/-- Witness for C5 at the value -7 shifted right by one bit. -/
theorem shr_signed_matches_native_witness :
    shrSigned (-7) 1 = i64Shr (-7) 1 ∧ shrSigned (-7) 1 = -4 :=
  ⟨shr_signed_matches_native (-7) 1 (by decide) (by decide) (by decide), by decide⟩

/- ===== Root extraction module ===== -/

/-- Bounded binary search for the floor square root. The invariant is
lo * lo ≤ n < hi * hi; the first argument after n is recursion fuel. -/
def isqrtAux (n : Nat) : Nat → Nat → Nat → Nat
  | 0, lo, _ => lo
  | fuel + 1, lo, hi =>
    if hi ≤ lo + 1 then lo
    else if ((lo + hi) / 2) * ((lo + hi) / 2) ≤ n then isqrtAux n fuel ((lo + hi) / 2) hi
    else isqrtAux n fuel lo ((lo + hi) / 2)

/-- Bounded binary search for the floor cube root, as isqrtAux with cubes. -/
def icbrtAux (n : Nat) : Nat → Nat → Nat → Nat
  | 0, lo, _ => lo
  | fuel + 1, lo, hi =>
    if hi ≤ lo + 1 then lo
    else if ((lo + hi) / 2) * ((lo + hi) / 2) * ((lo + hi) / 2) ≤ n then
      icbrtAux n fuel ((lo + hi) / 2) hi
    else icbrtAux n fuel lo ((lo + hi) / 2)

/-- Modelled from the spec: integer square root of the unsigned type, the floor
square root r with r * r at most n and n below (r + 1) * (r + 1). The library
Newton iteration is absent from the visible sources; the specified floor
contract is realised here by a terminating bounded search. -/
def ubiSqrt (n : Nat) : Nat := isqrtAux n (n + 2) 0 (n + 1)

/-- Modelled from the spec: integer cube root of the unsigned type, the floor
cube root realised by a terminating bounded search. -/
def ubiCbrt (n : Nat) : Nat := icbrtAux n (n + 2) 0 (n + 1)

/-- Modelled from the spec: integer cube root of the signed type preserves the
sign of the operand and takes the floor cube root of the magnitude. -/
def sbiCbrt (v : Int) : Int :=
  if 0 ≤ v then (ubiCbrt v.toNat : Int) else -(ubiCbrt (-v).toNat : Int)

theorem isqrtAux_spec (n : Nat) : ∀ (fuel lo hi : Nat),
    lo * lo ≤ n → n < hi * hi → lo < hi → hi - lo ≤ fuel →
    isqrtAux n fuel lo hi * isqrtAux n fuel lo hi ≤ n ∧
      n < (isqrtAux n fuel lo hi + 1) * (isqrtAux n fuel lo hi + 1) := by
  intro fuel
  induction fuel with
  | zero =>
    intro lo hi hlo hhi hlt hfuel
    exact absurd hfuel (by omega)
  | succ f ih =>
    intro lo hi hlo hhi hlt hfuel
    by_cases hnear : hi ≤ lo + 1
    · rw [isqrtAux, if_pos hnear]
      have heq : hi = lo + 1 := by omega
      subst heq
      exact ⟨hlo, hhi⟩
    · rw [isqrtAux, if_neg hnear]
      by_cases hmid : ((lo + hi) / 2) * ((lo + hi) / 2) ≤ n
      · rw [if_pos hmid]
        exact ih ((lo + hi) / 2) hi hmid hhi (by omega) (by omega)
      · rw [if_neg hmid]
        exact ih lo ((lo + hi) / 2) hlo (by omega) (by omega) (by omega)

theorem icbrtAux_spec (n : Nat) : ∀ (fuel lo hi : Nat),
    lo * lo * lo ≤ n → n < hi * hi * hi → lo < hi → hi - lo ≤ fuel →
    icbrtAux n fuel lo hi * icbrtAux n fuel lo hi * icbrtAux n fuel lo hi ≤ n ∧
      n < (icbrtAux n fuel lo hi + 1) * (icbrtAux n fuel lo hi + 1) *
        (icbrtAux n fuel lo hi + 1) := by
  intro fuel
  induction fuel with
  | zero =>
    intro lo hi hlo hhi hlt hfuel
    exact absurd hfuel (by omega)
  | succ f ih =>
    intro lo hi hlo hhi hlt hfuel
    by_cases hnear : hi ≤ lo + 1
    · rw [icbrtAux, if_pos hnear]
      have heq : hi = lo + 1 := by omega
      subst heq
      exact ⟨hlo, hhi⟩
    · rw [icbrtAux, if_neg hnear]
      by_cases hmid : ((lo + hi) / 2) * ((lo + hi) / 2) * ((lo + hi) / 2) ≤ n
      · rw [if_pos hmid]
        exact ih ((lo + hi) / 2) hi hmid hhi (by omega) (by omega)
      · rw [if_neg hmid]
        exact ih lo ((lo + hi) / 2) hlo (by omega) (by omega) (by omega)

theorem ubiSqrt_bounds (n : Nat) :
    ubiSqrt n * ubiSqrt n ≤ n ∧ n < (ubiSqrt n + 1) * (ubiSqrt n + 1) := by
  have hup : n + 1 ≤ (n + 1) * (n + 1) := Nat.le_mul_of_pos_left (n + 1) (by omega)
  exact isqrtAux_spec n (n + 2) 0 (n + 1) (by omega) (by omega) (by omega) (by omega)

theorem ubiCbrt_bounds (n : Nat) :
    ubiCbrt n * ubiCbrt n * ubiCbrt n ≤ n ∧
      n < (ubiCbrt n + 1) * (ubiCbrt n + 1) * (ubiCbrt n + 1) := by
  have h1 : n + 1 ≤ (n + 1) * (n + 1) := Nat.le_mul_of_pos_left (n + 1) (by omega)
  have hup : n + 1 ≤ (n + 1) * (n + 1) * (n + 1) :=
    le_trans h1 (Nat.le_mul_of_pos_right _ (by omega))
  exact icbrtAux_spec n (n + 2) 0 (n + 1) (by omega) (by omega) (by omega) (by omega)

theorem cube_le_cube {a b : Nat} (h : a ≤ b) : a * a * a ≤ b * b * b :=
  Nat.mul_le_mul (Nat.mul_le_mul h h) h

theorem ubiCbrt_cube (x : Nat) : ubiCbrt (x * x * x) = x := by
  obtain ⟨h1, h2⟩ := ubiCbrt_bounds (x * x * x)
  by_cases hgt : x < ubiCbrt (x * x * x)
  · have hc : (x + 1) * (x + 1) * (x + 1) ≤
        ubiCbrt (x * x * x) * ubiCbrt (x * x * x) * ubiCbrt (x * x * x) :=
      cube_le_cube (by omega)
    have hx : x * x * x < (x + 1) * (x + 1) * (x + 1) := by
      have hb : x * x * x < (x * x + 1) * (x + 1) := by nlinarith
      nlinarith
    omega
  · by_cases hlt : ubiCbrt (x * x * x) + 1 ≤ x
    · have hc : (ubiCbrt (x * x * x) + 1) * (ubiCbrt (x * x * x) + 1) *
          (ubiCbrt (x * x * x) + 1) ≤ x * x * x := cube_le_cube hlt
      omega
    · omega

theorem sbiCbrt_cube (y : Int) : sbiCbrt (y * y * y) = y := by
  rcases le_or_lt 0 y with hy | hy
  · have ht : ((y.toNat : Int)) = y := Int.toNat_of_nonneg hy
    have hnn : 0 ≤ y * y * y := mul_nonneg (mul_nonneg hy hy) hy
    have hcube : y * y * y = ((y.toNat * y.toNat * y.toNat : Nat) : Int) := by
      push_cast
      rw [ht]
    rw [sbiCbrt, if_pos hnn, hcube, Int.toNat_natCast, ubiCbrt_cube]
    exact ht
  · have h2 : 0 < y * y := mul_pos_of_neg_of_neg hy hy
    have hneg : y * y * y < 0 := mul_neg_of_pos_of_neg h2 hy
    have ht : ((((-y).toNat) : Int)) = -y := Int.toNat_of_nonneg (by omega)
    have hcube : -(y * y * y) = (((-y).toNat * (-y).toNat * (-y).toNat : Nat) : Int) := by
      push_cast
      rw [ht]
      ring
    rw [sbiCbrt, if_neg (by omega), hcube, Int.toNat_natCast, ubiCbrt_cube, ht, neg_neg]

/-- C7: the unsigned integer square root r satisfies r * r at most x with x
below (r + 1) * (r + 1), and the cube root inverts cubing for both the
unsigned and the signed type, the signed cube root preserving the sign. -/
theorem sqrt_cbrt_spec (x : Nat) (y : Int) :
    ubiSqrt x * ubiSqrt x ≤ x ∧ x < (ubiSqrt x + 1) * (ubiSqrt x + 1) ∧
      ubiCbrt (x * x * x) = x ∧ sbiCbrt (y * y * y) = y :=
  ⟨(ubiSqrt_bounds x).1, (ubiSqrt_bounds x).2, ubiCbrt_cube x, sbiCbrt_cube y⟩

example : ubiSqrt 10 = 3 := by decide

example : ubiSqrt 16 = 4 := by decide

example : sbiCbrt (-27) = -3 := by decide

/- ===== Radix codec ===== -/

/-- Character code of a digit value below 36: values 0 to 9 map to the ASCII
decimal digits, values 10 to 35 map to the lowercase letters. -/
def digitCode (d : Nat) : Nat := if d < 10 then 48 + d else 87 + d

/-- Modelled from the spec: case-insensitive digit value of a character code
(the library radix codec is absent from the visible sources); none outside
the digit alphabet. -/
def charDigit (c : Nat) : Option Nat :=
  if 48 ≤ c ∧ c ≤ 57 then some (c - 48)
  else if 97 ≤ c ∧ c ≤ 122 then some (c - 87)
  else if 65 ≤ c ∧ c ≤ 90 then some (c - 55)
  else none

/-- Big-endian digit characters of a natural number in radix r, empty for
zero; the second argument is recursion fuel. -/
def natDigitsBE (r : Nat) : Nat → Nat → List Nat
  | 0, _ => []
  | fuel + 1, n =>
    if n = 0 then [] else natDigitsBE r fuel (n / r) ++ [digitCode (n % r)]

/-- Modelled from the spec: formatting of an unsigned value in radix r, the
canonical digit string with no superfluous leading zero digits, the zero
value formatting as the single digit 0. -/
def to_str_radix (n r : Nat) : List Nat :=
  if n = 0 then [48] else natDigitsBE r n n

/-- Parse loop, most significant digit first, rejecting any character outside
the alphabet of radix r. -/
def parseDigits (r : Nat) : List Nat → Nat → Option Nat
  | [], acc => some acc
  | c :: cs, acc =>
    (charDigit c).bind fun d => if d < r then parseDigits r cs (acc * r + d) else none

/-- Modelled from the spec: parsing of an unsigned digit string in radix r,
failing on an empty digit portion or on any character outside the alphabet. -/
def from_str_radix (s : List Nat) (r : Nat) : Option Nat :=
  if s = [] then none else parseDigits r s 0

/-- Modelled from the spec: formatting of a signed value, the magnitude string
prefixed with the minus sign marker (code 45) for negative values. -/
def to_str_radix_int (v : Int) (r : Nat) : List Nat :=
  if v < 0 then 45 :: to_str_radix (-v).toNat r else to_str_radix v.toNat r

/-- Modelled from the spec: parsing of a signed digit string, accepting an
optional leading sign marker (minus code 45 or plus code 43). -/
def from_str_radix_int (s : List Nat) (r : Nat) : Option Int :=
  match s with
  | [] => none
  | c :: rest =>
    if c = 45 then Option.map (fun n : Nat => -(n : Int)) (from_str_radix rest r)
    else if c = 43 then Option.map (fun n : Nat => (n : Int)) (from_str_radix rest r)
    else Option.map (fun n : Nat => (n : Int)) (from_str_radix (c :: rest) r)

theorem charDigit_digitCode : ∀ d < 36, charDigit (digitCode d) = some d := by decide

theorem digitCode_ge48 (d : Nat) : 48 ≤ digitCode d := by
  rw [digitCode]
  split <;> omega

theorem natDigitsBE_ge48 (r : Nat) : ∀ (fuel n : Nat) (c : Nat),
    c ∈ natDigitsBE r fuel n → 48 ≤ c := by
  intro fuel
  induction fuel with
  | zero =>
    intro n c hc
    exact absurd hc (by simp [natDigitsBE])
  | succ f ih =>
    intro n c hc
    by_cases h0 : n = 0
    · subst h0
      rw [natDigitsBE, if_pos rfl] at hc
      exact absurd hc (by simp)
    · rw [natDigitsBE, if_neg h0] at hc
      rcases List.mem_append.mp hc with hmem | hmem
      · exact ih (n / r) c hmem
      · rw [List.mem_singleton.mp hmem]
        exact digitCode_ge48 _

theorem parseDigits_append (r : Nat) : ∀ (xs ys : List Nat) (acc : Nat),
    parseDigits r (xs ++ ys) acc =
      (parseDigits r xs acc).bind (fun a => parseDigits r ys a) := by
  intro xs
  induction xs with
  | nil =>
    intro ys acc
    rfl
  | cons c cs ih =>
    intro ys acc
    rw [List.cons_append, parseDigits, parseDigits]
    cases hcd : charDigit c with
    | none => rw [Option.none_bind, Option.none_bind, Option.none_bind]
    | some d =>
      rw [Option.some_bind, Option.some_bind]
      by_cases hd : d < r
      · rw [if_pos hd, if_pos hd, ih]
      · rw [if_neg hd, if_neg hd, Option.none_bind]

theorem parseDigits_natDigitsBE (r : Nat) (h2 : 2 ≤ r) (h36 : r ≤ 36) :
    ∀ (fuel n acc : Nat), n ≤ fuel →
      parseDigits r (natDigitsBE r fuel n) acc =
        some (acc * r ^ (natDigitsBE r fuel n).length + n) := by
  intro fuel
  induction fuel with
  | zero =>
    intro n acc hn
    have h0 : n = 0 := by omega
    subst h0
    show parseDigits r [] acc = some (acc * r ^ (List.length ([] : List Nat)) + 0)
    rw [parseDigits, List.length_nil, pow_zero, Nat.mul_one, Nat.add_zero]
  | succ f ih =>
    intro n acc hn
    by_cases h0 : n = 0
    · subst h0
      rw [natDigitsBE, if_pos rfl, parseDigits, List.length_nil, pow_zero,
        Nat.mul_one, Nat.add_zero]
    · have hdiv : n / r < n := Nat.div_lt_self (by omega) (by omega)
      rw [natDigitsBE, if_neg h0, parseDigits_append, ih (n / r) acc (by omega)]
      rw [Option.some_bind]
      have hmod : n % r < r := Nat.mod_lt _ (by omega)
      have hcd : charDigit (digitCode (n % r)) = some (n % r) :=
        charDigit_digitCode _ (by omega)
      rw [parseDigits, hcd, Option.some_bind, if_pos hmod, parseDigits]
      rw [List.length_append, List.length_singleton]
      congr 1
      have hdm : r * (n / r) + n % r = n := Nat.div_add_mod n r
      have hpow : r ^ ((natDigitsBE r f (n / r)).length + 1) =
          r ^ (natDigitsBE r f (n / r)).length * r := pow_succ r _
      calc (acc * r ^ (natDigitsBE r f (n / r)).length + n / r) * r + n % r
          = acc * (r ^ (natDigitsBE r f (n / r)).length * r) + (r * (n / r) + n % r) := by
            ring
        _ = acc * r ^ ((natDigitsBE r f (n / r)).length + 1) + n := by rw [hdm, ← hpow]

theorem natDigitsBE_ne_nil (r n fuel : Nat) (h0 : n ≠ 0) (hf : 1 ≤ fuel) :
    natDigitsBE r fuel n ≠ [] := by
  cases fuel with
  | zero => omega
  | succ f =>
    rw [natDigitsBE, if_neg h0]
    simp

theorem to_str_radix_ne_nil (n r : Nat) : to_str_radix n r ≠ [] := by
  rw [to_str_radix]
  by_cases h0 : n = 0
  · rw [if_pos h0]
    simp
  · rw [if_neg h0]
    exact natDigitsBE_ne_nil r n n h0 (by omega)

theorem to_str_radix_ge48 (n r : Nat) : ∀ c ∈ to_str_radix n r, 48 ≤ c := by
  intro c hc
  rw [to_str_radix] at hc
  by_cases h0 : n = 0
  · rw [if_pos h0] at hc
    rw [List.mem_singleton.mp hc]
  · rw [if_neg h0] at hc
    exact natDigitsBE_ge48 r n n c hc

theorem from_str_radix_to_str_radix (n r : Nat) (h2 : 2 ≤ r) (h36 : r ≤ 36) :
    from_str_radix (to_str_radix n r) r = some n := by
  by_cases h0 : n = 0
  · subst h0
    rw [to_str_radix, if_pos rfl, from_str_radix, if_neg (by simp)]
    have hcd : charDigit 48 = some 0 := by norm_num [charDigit]
    rw [parseDigits, hcd, Option.some_bind, if_pos (by omega), parseDigits]
    simp
  · rw [to_str_radix, if_neg h0, from_str_radix,
      if_neg (natDigitsBE_ne_nil r n n h0 (by omega)),
      parseDigits_natDigitsBE r h2 h36 n n 0 (le_refl n), Nat.zero_mul, Nat.zero_add]

theorem from_str_to_str_int (v : Int) (r : Nat) (h2 : 2 ≤ r) (h36 : r ≤ 36) :
    from_str_radix_int (to_str_radix_int v r) r = some v := by
  by_cases hv : v < 0
  · rw [to_str_radix_int, if_pos hv, from_str_radix_int, if_pos rfl,
      from_str_radix_to_str_radix _ r h2 h36, Option.map_some']
    congr 1
    omega
  · rw [to_str_radix_int, if_neg hv]
    obtain ⟨c, cs, hs⟩ : ∃ c cs, to_str_radix v.toNat r = c :: cs := by
      cases hl : to_str_radix v.toNat r with
      | nil => exact absurd hl (to_str_radix_ne_nil _ _)
      | cons c cs => exact ⟨c, cs, rfl⟩
    have hge : 48 ≤ c := to_str_radix_ge48 v.toNat r c (by rw [hs]; exact List.mem_cons_self c cs)
    rw [hs, from_str_radix_int, if_neg (by omega), if_neg (by omega), ← hs,
      from_str_radix_to_str_radix v.toNat r h2 h36, Option.map_some']
    congr 1
    omega

/-- C4: for every unsigned value, every signed value, and every radix in
[2, 36], parsing the formatted digit string in the same radix succeeds and
returns exactly the original value. -/
theorem format_parse_roundtrip (n : Nat) (v : Int) (r : Nat) (h2 : 2 ≤ r) (h36 : r ≤ 36) :
    from_str_radix (to_str_radix n r) r = some n ∧
      from_str_radix_int (to_str_radix_int v r) r = some v :=
  ⟨from_str_radix_to_str_radix n r h2 h36, from_str_to_str_int v r h2 h36⟩

/-- Witness for C4 at the values 255 and -255 in radix 16. -/
theorem format_parse_roundtrip_witness :
    from_str_radix (to_str_radix 255 16) 16 = some 255 ∧
      from_str_radix_int (to_str_radix_int (-255) 16) 16 = some (-255) :=
  format_parse_roundtrip 255 (-255) 16 (by decide) (by decide)

example : to_str_radix 255 16 = [102, 102] := by decide

example : to_str_radix_int (-26) 36 = [45, 113] := by decide

example : from_str_radix_int [43, 70, 102] 16 = some 255 := by decide

/- ===== DigitVector: canonical magnitude storage =====
The unsigned type stores a little-endian vector of 32-bit words with no
trailing zero word; the value zero is the empty vector. -/

/-- Word base of the digit vectors: 32-bit words. -/
def wordBase : Nat := 4294967296

/-- Value of a little-endian digit vector. -/
def dval : List Nat → Nat
  | [] => 0
  | d :: ds => d + wordBase * dval ds

/-- Normalization invariant of a digit vector: every word is below the base
and there is no trailing (highest-index) zero word. -/
def NormV (ds : List Nat) : Prop :=
  (∀ d ∈ ds, d < wordBase) ∧ ds.getLast? ≠ some 0

/-- Canonical digit decomposition; the first argument is recursion fuel. -/
def natWordsAux : Nat → Nat → List Nat
  | 0, _ => []
  | fuel + 1, n => if n = 0 then [] else n % wordBase :: natWordsAux fuel (n / wordBase)

/-- Canonical little-endian digit vector of an unsigned value: conversion from
a native unsigned integer into the unsigned big-integer type. -/
def natWords (n : Nat) : List Nat := natWordsAux n n

theorem natWordsAux_succ (f n : Nat) (h0 : n ≠ 0) :
    natWordsAux (f + 1) n = n % wordBase :: natWordsAux f (n / wordBase) := by
  rw [natWordsAux, if_neg h0]

theorem natWordsAux_fuel : ∀ (f1 : Nat), ∀ (f2 n : Nat), n ≤ f1 → n ≤ f2 →
    natWordsAux f1 n = natWordsAux f2 n := by
  intro f1
  induction f1 with
  | zero =>
    intro f2 n h1 h2
    have h0 : n = 0 := by omega
    subst h0
    cases f2 with
    | zero => rfl
    | succ g => rw [natWordsAux, natWordsAux, if_pos rfl]
  | succ f ih =>
    intro f2 n h1 h2
    by_cases h0 : n = 0
    · subst h0
      cases f2 with
      | zero => rw [natWordsAux, natWordsAux, if_pos rfl]
      | succ g => rw [natWordsAux, natWordsAux, if_pos rfl, if_pos rfl]
    · cases f2 with
      | zero => omega
      | succ g =>
        have hdiv : n / wordBase < n := Nat.div_lt_self (by omega) (by rw [wordBase]; omega)
        rw [natWordsAux_succ f n h0, natWordsAux_succ g n h0,
          ih g (n / wordBase) (by omega) (by omega)]

theorem natWords_eq (n : Nat) :
    natWords n = if n = 0 then [] else n % wordBase :: natWords (n / wordBase) := by
  by_cases h0 : n = 0
  · subst h0
    rw [if_pos rfl]
    rfl
  · rw [if_neg h0, natWords, natWords]
    cases hn : n with
    | zero => omega
    | succ m =>
      rw [natWordsAux_succ m (m + 1) (by omega)]
      have hdiv : (m + 1) / wordBase < m + 1 :=
        Nat.div_lt_self (by omega) (by rw [wordBase]; omega)
      rw [natWordsAux_fuel m ((m + 1) / wordBase) ((m + 1) / wordBase) (by omega) (le_refl _)]

theorem dval_natWords (n : Nat) : dval (natWords n) = n := by
  induction n using Nat.strong_induction_on with
  | _ n ih =>
    rw [natWords_eq]
    by_cases h0 : n = 0
    · rw [if_pos h0, dval, h0]
    · rw [if_neg h0, dval]
      have hdiv : n / wordBase < n := Nat.div_lt_self (by omega) (by rw [wordBase]; omega)
      rw [ih (n / wordBase) hdiv]
      have := Nat.mod_add_div n wordBase
      omega

theorem norm_natWords (n : Nat) : NormV (natWords n) := by
  induction n using Nat.strong_induction_on with
  | _ n ih =>
    rw [natWords_eq]
    by_cases h0 : n = 0
    · rw [if_pos h0]
      exact ⟨by simp, by simp⟩
    · rw [if_neg h0]
      have hdiv : n / wordBase < n := Nat.div_lt_self (by omega) (by rw [wordBase]; omega)
      have ihd := ih (n / wordBase) hdiv
      constructor
      · intro d hd
        rcases List.mem_cons.mp hd with hd | hd
        · subst hd
          exact Nat.mod_lt _ (by rw [wordBase]; omega)
        · exact ihd.1 d hd
      · cases hw : natWords (n / wordBase) with
        | nil =>
          rw [List.getLast?_singleton]
          have hz : n / wordBase = 0 := by
            by_contra hnz
            rw [natWords_eq, if_neg hnz] at hw
            exact absurd hw (by simp)
          have hmod : n % wordBase = n := by
            have h := Nat.mod_add_div n wordBase
            rw [hz, Nat.mul_zero, Nat.add_zero] at h
            exact h
          intro hcontra
          rw [Option.some.injEq] at hcontra
          omega
        | cons e es =>
          rw [List.getLast?_cons_cons]
          rw [hw] at ihd
          exact ihd.2

theorem normv_tail {d : Nat} {t : List Nat} (h : NormV (d :: t)) : NormV t := by
  obtain ⟨hb, hl⟩ := h
  cases t with
  | nil => exact ⟨by simp, by simp⟩
  | cons e t2 =>
    refine ⟨fun x hx => hb x (List.mem_cons_of_mem d hx), ?_⟩
    rw [List.getLast?_cons_cons] at hl
    exact hl

theorem natWords_dval : ∀ (ds : List Nat), NormV ds → natWords (dval ds) = ds := by
  intro ds
  induction ds with
  | nil =>
    intro h
    rfl
  | cons d t ih =>
    intro h
    have hd : d < wordBase := h.1 d (List.mem_cons_self d t)
    have ht := normv_tail h
    have hwb : 0 < wordBase := by rw [wordBase]; omega
    by_cases hmt : t = []
    · subst hmt
      have hdz : d ≠ 0 := by
        intro hc
        subst hc
        exact h.2 (by rw [List.getLast?_singleton])
      rw [dval, dval, Nat.mul_zero, Nat.add_zero, natWords_eq, if_neg hdz,
        Nat.mod_eq_of_lt hd, Nat.div_eq_of_lt hd]
      rfl
    · have hrec : natWords (dval t) = t := ih ht
      have htz : dval t ≠ 0 := by
        intro hc
        refine hmt ?_
        rw [← hrec, hc]
        rfl
      have hn0 : d + wordBase * dval t ≠ 0 := by
        have h1 : 0 < wordBase * dval t := Nat.mul_pos hwb (Nat.pos_of_ne_zero htz)
        omega
      have hmod : (d + wordBase * dval t) % wordBase = d := by
        rw [Nat.add_mul_mod_self_left, Nat.mod_eq_of_lt hd]
      have hdiv : (d + wordBase * dval t) / wordBase = dval t := by
        rw [Nat.add_mul_div_left d _ hwb, Nat.div_eq_of_lt hd, Nat.zero_add]
      rw [dval, natWords_eq, if_neg hn0, hmod, hdiv, hrec]

theorem normv_unique {a b : List Nat} (ha : NormV a) (hb : NormV b)
    (h : dval a = dval b) : a = b := by
  rw [← natWords_dval a ha, ← natWords_dval b hb, h]

theorem normv_nil_of_dval {a : List Nat} (ha : NormV a) (h : dval a = 0) : a = [] := by
  rw [← natWords_dval a ha, h]
  rfl

theorem dval_lt_pow : ∀ (ds : List Nat), (∀ d ∈ ds, d < wordBase) →
    dval ds < wordBase ^ ds.length := by
  intro ds
  induction ds with
  | nil =>
    intro h
    rw [dval, List.length_nil, pow_zero]
    omega
  | cons d t ih =>
    intro h
    have hd : d < wordBase := h d (List.mem_cons_self d t)
    have ihd := ih (fun x hx => h x (List.mem_cons_of_mem d hx))
    rw [dval, List.length_cons, pow_succ]
    have hwb : wordBase = 4294967296 := rfl
    simp only [hwb] at hd ihd ⊢
    omega

theorem wordBase_lit : wordBase = 4294967296 := rfl

/-- Keep a word in front of a normalized tail, dropping it when it would be a
trailing zero word. -/
def consNonzero (d : Nat) (ds : List Nat) : List Nat :=
  if ds = [] then (if d = 0 then [] else [d]) else d :: ds

/-- Strip trailing zero words: the normalization every digit vector operation
re-establishes before returning. -/
def normalizeV : List Nat → List Nat
  | [] => []
  | d :: ds => consNonzero d (normalizeV ds)

theorem dval_consNonzero (d : Nat) (t : List Nat) :
    dval (consNonzero d t) = d + wordBase * dval t := by
  rw [consNonzero]
  by_cases ht : t = []
  · subst ht
    rw [if_pos rfl]
    by_cases hd : d = 0
    · subst hd
      rw [if_pos rfl, dval]
      omega
    · rw [if_neg hd]
      simp [dval]
  · rw [if_neg ht, dval]

theorem normv_consNonzero {d : Nat} {t : List Nat} (hd : d < wordBase) (ht : NormV t) :
    NormV (consNonzero d t) := by
  rw [consNonzero]
  by_cases hte : t = []
  · rw [if_pos hte]
    by_cases hdz : d = 0
    · rw [if_pos hdz]
      exact ⟨by simp, by simp⟩
    · rw [if_neg hdz]
      refine ⟨?_, ?_⟩
      · intro x hx
        rw [List.mem_singleton.mp hx]
        exact hd
      · rw [List.getLast?_singleton]
        intro hc
        rw [Option.some.injEq] at hc
        exact hdz hc
  · rw [if_neg hte]
    cases t with
    | nil => exact absurd rfl hte
    | cons e es =>
      refine ⟨?_, ?_⟩
      · intro x hx
        rcases List.mem_cons.mp hx with hx | hx
        · subst hx
          exact hd
        · exact ht.1 x hx
      · rw [List.getLast?_cons_cons]
        exact ht.2

theorem dval_normalize : ∀ (ds : List Nat), dval (normalizeV ds) = dval ds := by
  intro ds
  induction ds with
  | nil => rfl
  | cons d t ih => rw [normalizeV, dval_consNonzero, ih, dval]

theorem normv_normalize : ∀ (ds : List Nat), (∀ d ∈ ds, d < wordBase) →
    NormV (normalizeV ds) := by
  intro ds
  induction ds with
  | nil =>
    intro h
    exact ⟨by simp [normalizeV], by simp [normalizeV]⟩
  | cons d t ih =>
    intro h
    rw [normalizeV]
    exact normv_consNonzero (h d (List.mem_cons_self d t))
      (ih (fun x hx => h x (List.mem_cons_of_mem d hx)))

/- ===== Unsigned arithmetic core: addition ===== -/

/-- Carry propagation through the remaining words of the longer operand. -/
def addCarry : List Nat → Nat → List Nat
  | [], c => if c = 0 then [] else [c]
  | b :: bs, c => (b + c) % wordBase :: addCarry bs ((b + c) / wordBase)

/-- Word-by-word addition with a carry, from least to most significant word. -/
def addWords : List Nat → List Nat → Nat → List Nat
  | [], bs, c => addCarry bs c
  | a :: as, [], c => addCarry (a :: as) c
  | a :: as, b :: bs, c => (a + b + c) % wordBase :: addWords as bs ((a + b + c) / wordBase)

/-- Modelled from the spec: addition of the unsigned digit vectors
(add_digits), carry propagation left to right, then normalization. -/
def add_digits (as bs : List Nat) : List Nat := normalizeV (addWords as bs 0)

theorem dval_addCarry : ∀ (bs : List Nat) (c : Nat), dval (addCarry bs c) = dval bs + c := by
  intro bs
  induction bs with
  | nil =>
    intro c
    by_cases hc : c = 0
    · subst hc
      rw [addCarry, if_pos rfl, dval]
    · rw [addCarry, if_neg hc]
      simp [dval]
  | cons b t ih =>
    intro c
    rw [addCarry, dval, ih, dval]
    simp only [wordBase_lit]
    omega

theorem dval_addWords : ∀ (as bs : List Nat) (c : Nat),
    dval (addWords as bs c) = dval as + dval bs + c := by
  intro as
  induction as with
  | nil =>
    intro bs c
    rw [addWords, dval_addCarry, dval]
    omega
  | cons a t ih =>
    intro bs c
    cases bs with
    | nil =>
      rw [addWords, dval_addCarry, dval]
      omega
    | cons b bs2 =>
      rw [addWords, dval, ih, dval, dval]
      simp only [wordBase_lit]
      omega

theorem mem_addCarry_lt : ∀ (bs : List Nat) (c : Nat), (∀ b ∈ bs, b < wordBase) →
    c ≤ 1 → ∀ x ∈ addCarry bs c, x < wordBase := by
  intro bs
  induction bs with
  | nil =>
    intro c hb hc x hx
    by_cases h0 : c = 0
    · subst h0
      rw [addCarry, if_pos rfl] at hx
      exact absurd hx (by simp)
    · rw [addCarry, if_neg h0] at hx
      rw [List.mem_singleton.mp hx, wordBase_lit]
      omega
  | cons b t ih =>
    intro c hb hc x hx
    rw [addCarry] at hx
    rcases List.mem_cons.mp hx with hx | hx
    · subst hx
      rw [wordBase_lit]
      omega
    · refine ih _ (fun y hy => hb y (List.mem_cons_of_mem b hy)) ?_ x hx
      have hblt := hb b (List.mem_cons_self b t)
      rw [wordBase_lit] at hblt ⊢
      omega

theorem mem_addWords_lt : ∀ (as bs : List Nat) (c : Nat), (∀ a ∈ as, a < wordBase) →
    (∀ b ∈ bs, b < wordBase) → c ≤ 1 → ∀ x ∈ addWords as bs c, x < wordBase := by
  intro as
  induction as with
  | nil =>
    intro bs c ha hb hc
    rw [addWords]
    exact mem_addCarry_lt bs c hb hc
  | cons a t ih =>
    intro bs c ha hb hc
    cases bs with
    | nil =>
      rw [addWords]
      exact mem_addCarry_lt (a :: t) c ha hc
    | cons b bs2 =>
      intro x hx
      rw [addWords] at hx
      rcases List.mem_cons.mp hx with hx | hx
      · subst hx
        rw [wordBase_lit]
        omega
      · refine ih bs2 _ (fun y hy => ha y (List.mem_cons_of_mem a hy))
          (fun y hy => hb y (List.mem_cons_of_mem b hy)) ?_ x hx
        have ha1 := ha a (List.mem_cons_self a t)
        have hb1 := hb b (List.mem_cons_self b bs2)
        rw [wordBase_lit] at ha1 hb1 ⊢
        omega

theorem dval_add_digits (as bs : List Nat) :
    dval (add_digits as bs) = dval as + dval bs := by
  rw [add_digits, dval_normalize, dval_addWords]
  omega

theorem normv_add_digits {as bs : List Nat} (ha : ∀ a ∈ as, a < wordBase)
    (hb : ∀ b ∈ bs, b < wordBase) : NormV (add_digits as bs) :=
  normv_normalize _ (mem_addWords_lt as bs 0 ha hb (by omega))

/- ===== Unsigned arithmetic core: subtraction ===== -/

/-- Borrow propagation through the remaining words of the minuend. -/
def subCarry : List Nat → Nat → List Nat
  | [], _ => []
  | a :: as, brw =>
    if brw ≤ a then (a - brw) :: subCarry as 0
    else (a + wordBase - brw) :: subCarry as 1

/-- Word-by-word subtraction with a borrow, from least to most significant
word; the sign-aware caller guarantees minuend at least subtrahend. -/
def subWords : List Nat → List Nat → Nat → List Nat
  | as, [], brw => subCarry as brw
  | [], _ :: _, _ => []
  | a :: as, b :: bs, brw =>
    if b + brw ≤ a then (a - b - brw) :: subWords as bs 0
    else (a + wordBase - b - brw) :: subWords as bs 1

/-- Modelled from the spec: subtraction of digit vectors (sub_digits), with
borrow propagation and normalization; defined when minuend dominates. -/
def sub_digits (as bs : List Nat) : List Nat := normalizeV (subWords as bs 0)

theorem dval_subCarry : ∀ (as : List Nat) (brw : Nat), (∀ a ∈ as, a < wordBase) →
    brw ≤ 1 → brw ≤ dval as → dval (subCarry as brw) + brw = dval as := by
  intro as
  induction as with
  | nil =>
    intro brw ha h1 hle
    rw [dval] at hle
    rw [subCarry, dval]
    omega
  | cons a t ih =>
    intro brw ha h1 hle
    have halt := ha a (List.mem_cons_self a t)
    have hat : ∀ x ∈ t, x < wordBase := fun x hx => ha x (List.mem_cons_of_mem a hx)
    by_cases hb : brw ≤ a
    · rw [subCarry, if_pos hb, dval]
      have hrec := ih 0 hat (by omega) (by omega)
      rw [dval] at hle ⊢
      rw [wordBase_lit] at *
      omega
    · rw [subCarry, if_neg hb, dval]
      rw [dval] at hle
      have hdt : 1 ≤ dval t := by
        rw [wordBase_lit] at *
        omega
      have hrec := ih 1 hat (by omega) hdt
      simp only [dval]
      rw [wordBase_lit] at *
      omega

theorem dval_subWords : ∀ (as bs : List Nat) (brw : Nat),
    (∀ a ∈ as, a < wordBase) → (∀ b ∈ bs, b < wordBase) → brw ≤ 1 →
    dval bs + brw ≤ dval as →
    dval (subWords as bs brw) + dval bs + brw = dval as := by
  intro as
  induction as with
  | nil =>
    intro bs brw ha hb h1 hle
    cases bs with
    | nil =>
      rw [dval] at hle ⊢
      rw [subWords, subCarry, dval]
      omega
    | cons b bs2 =>
      simp only [dval] at hle
      rw [subWords]
      simp only [dval]
      rw [wordBase_lit] at *
      omega
  | cons a t ih =>
    intro bs brw ha hb h1 hle
    have halt := ha a (List.mem_cons_self a t)
    have hat : ∀ x ∈ t, x < wordBase := fun x hx => ha x (List.mem_cons_of_mem a hx)
    cases bs with
    | nil =>
      rw [subWords, dval]
      have h := dval_subCarry (a :: t) brw ha h1 (by rw [dval] at hle ⊢; omega)
      omega
    | cons b bs2 =>
      have hblt := hb b (List.mem_cons_self b bs2)
      have hbt : ∀ x ∈ bs2, x < wordBase := fun x hx => hb x (List.mem_cons_of_mem b hx)
      rw [dval, dval] at hle
      by_cases hc : b + brw ≤ a
      · have hpre : dval bs2 ≤ dval t := by
          rw [wordBase_lit] at *
          omega
        have hrec := ih bs2 0 hat hbt (by omega) (by omega)
        rw [subWords, if_pos hc, dval, dval, dval]
        rw [wordBase_lit] at *
        omega
      · have hpre : dval bs2 + 1 ≤ dval t := by
          rw [wordBase_lit] at *
          omega
        have hrec := ih bs2 1 hat hbt (by omega) hpre
        rw [subWords, if_neg hc, dval, dval, dval]
        rw [wordBase_lit] at *
        omega

theorem mem_subCarry_lt : ∀ (as : List Nat) (brw : Nat), (∀ a ∈ as, a < wordBase) →
    brw ≤ 1 → ∀ x ∈ subCarry as brw, x < wordBase := by
  intro as
  induction as with
  | nil =>
    intro brw ha h1 x hx
    exact absurd hx (by simp [subCarry])
  | cons a t ih =>
    intro brw ha h1 x hx
    have halt := ha a (List.mem_cons_self a t)
    have hat : ∀ y ∈ t, y < wordBase := fun y hy => ha y (List.mem_cons_of_mem a hy)
    by_cases hb : brw ≤ a
    · rw [subCarry, if_pos hb] at hx
      rcases List.mem_cons.mp hx with hx | hx
      · subst hx
        omega
      · exact ih 0 hat (by omega) x hx
    · rw [subCarry, if_neg hb] at hx
      rcases List.mem_cons.mp hx with hx | hx
      · subst hx
        rw [wordBase_lit] at *
        omega
      · exact ih 1 hat (by omega) x hx

theorem mem_subWords_lt : ∀ (as bs : List Nat) (brw : Nat),
    (∀ a ∈ as, a < wordBase) → (∀ b ∈ bs, b < wordBase) → brw ≤ 1 →
    ∀ x ∈ subWords as bs brw, x < wordBase := by
  intro as
  induction as with
  | nil =>
    intro bs brw ha hb h1 x hx
    cases bs with
    | nil => exact absurd hx (by simp [subWords, subCarry])
    | cons b bs2 => exact absurd hx (by simp [subWords])
  | cons a t ih =>
    intro bs brw ha hb h1 x hx
    have halt := ha a (List.mem_cons_self a t)
    have hat : ∀ y ∈ t, y < wordBase := fun y hy => ha y (List.mem_cons_of_mem a hy)
    cases bs with
    | nil =>
      rw [subWords] at hx
      exact mem_subCarry_lt (a :: t) brw ha h1 x hx
    | cons b bs2 =>
      have hblt := hb b (List.mem_cons_self b bs2)
      have hbt : ∀ y ∈ bs2, y < wordBase := fun y hy => hb y (List.mem_cons_of_mem b hy)
      by_cases hc : b + brw ≤ a
      · rw [subWords, if_pos hc] at hx
        rcases List.mem_cons.mp hx with hx | hx
        · subst hx
          omega
        · exact ih bs2 0 hat hbt (by omega) x hx
      · rw [subWords, if_neg hc] at hx
        rcases List.mem_cons.mp hx with hx | hx
        · subst hx
          rw [wordBase_lit] at *
          omega
        · exact ih bs2 1 hat hbt (by omega) x hx

theorem dval_sub_digits {as bs : List Nat} (ha : ∀ a ∈ as, a < wordBase)
    (hb : ∀ b ∈ bs, b < wordBase) (hle : dval bs ≤ dval as) :
    dval (sub_digits as bs) + dval bs = dval as := by
  rw [sub_digits, dval_normalize]
  have := dval_subWords as bs 0 ha hb (by omega) (by omega)
  omega

theorem normv_sub_digits {as bs : List Nat} (ha : ∀ a ∈ as, a < wordBase)
    (hb : ∀ b ∈ bs, b < wordBase) : NormV (sub_digits as bs) :=
  normv_normalize _ (mem_subWords_lt as bs 0 ha hb (by omega))

/- ===== Unsigned arithmetic core: multiplication ===== -/

/-- Multiply a digit vector by a single word, propagating a carry. -/
def mulDigit : List Nat → Nat → Nat → List Nat
  | [], _, c => if c = 0 then [] else [c]
  | b :: bs, m, c => ((b * m + c) % wordBase) :: mulDigit bs m ((b * m + c) / wordBase)

/-- Schoolbook accumulation: each word of the first operand multiplies the
whole second operand, one word further shifted per row. -/
def mulWords : List Nat → List Nat → List Nat
  | [], _ => []
  | a :: as, bs => addWords (mulDigit bs a 0) (0 :: mulWords as bs) 0

/-- Modelled from the spec: multiplication of digit vectors (mul by schoolbook
accumulation), normalized; exact product semantics. -/
def mul_digits (as bs : List Nat) : List Nat := normalizeV (mulWords as bs)

theorem dval_mulDigit : ∀ (bs : List Nat) (m c : Nat),
    dval (mulDigit bs m c) = dval bs * m + c := by
  intro bs
  induction bs with
  | nil =>
    intro m c
    by_cases hc : c = 0
    · subst hc
      rw [mulDigit, if_pos rfl]
      simp [dval]
    · rw [mulDigit, if_neg hc]
      simp [dval]
  | cons b t ih =>
    intro m c
    rw [mulDigit, dval, ih, dval]
    have key : (b * m + c) % wordBase + wordBase * ((b * m + c) / wordBase) = b * m + c :=
      Nat.mod_add_div _ _
    calc (b * m + c) % wordBase + wordBase * (dval t * m + (b * m + c) / wordBase)
        = ((b * m + c) % wordBase + wordBase * ((b * m + c) / wordBase)) +
            wordBase * (dval t * m) := by ring
      _ = b * m + c + wordBase * (dval t * m) := by rw [key]
      _ = (b + wordBase * dval t) * m + c := by ring

theorem mem_mulDigit_lt : ∀ (bs : List Nat) (m c : Nat), (∀ b ∈ bs, b < wordBase) →
    m < wordBase → c < wordBase → ∀ x ∈ mulDigit bs m c, x < wordBase := by
  intro bs
  induction bs with
  | nil =>
    intro m c hb hm hc x hx
    by_cases h0 : c = 0
    · subst h0
      rw [mulDigit, if_pos rfl] at hx
      exact absurd hx (by simp)
    · rw [mulDigit, if_neg h0] at hx
      rw [List.mem_singleton.mp hx]
      exact hc
  | cons b t ih =>
    intro m c hb hm hc x hx
    have hblt := hb b (List.mem_cons_self b t)
    have hbt : ∀ y ∈ t, y < wordBase := fun y hy => hb y (List.mem_cons_of_mem b hy)
    rw [mulDigit] at hx
    rcases List.mem_cons.mp hx with hx | hx
    · subst hx
      rw [wordBase_lit]
      omega
    · refine ih m _ hbt hm ?_ x hx
      have hmul : b * m ≤ 4294967295 * 4294967295 :=
        Nat.mul_le_mul (by rw [wordBase_lit] at hblt; omega) (by rw [wordBase_lit] at hm; omega)
      rw [wordBase_lit] at *
      omega

theorem dval_mulWords : ∀ (as bs : List Nat), dval (mulWords as bs) = dval as * dval bs := by
  intro as
  induction as with
  | nil =>
    intro bs
    rw [mulWords, dval]
    omega
  | cons a t ih =>
    intro bs
    rw [mulWords, dval_addWords, dval_mulDigit, dval, ih, dval]
    ring

theorem mem_mulWords_lt : ∀ (as bs : List Nat), (∀ a ∈ as, a < wordBase) →
    (∀ b ∈ bs, b < wordBase) → ∀ x ∈ mulWords as bs, x < wordBase := by
  intro as
  induction as with
  | nil =>
    intro bs ha hb x hx
    exact absurd hx (by simp [mulWords])
  | cons a t ih =>
    intro bs ha hb x hx
    have halt := ha a (List.mem_cons_self a t)
    have hat : ∀ y ∈ t, y < wordBase := fun y hy => ha y (List.mem_cons_of_mem a hy)
    rw [mulWords] at hx
    refine mem_addWords_lt _ _ 0
      (mem_mulDigit_lt bs a 0 hb halt (by rw [wordBase_lit]; omega)) ?_ (by omega) x hx
    intro y hy
    rcases List.mem_cons.mp hy with hy | hy
    · subst hy
      rw [wordBase_lit]
      omega
    · exact ih bs hat hb y hy

theorem dval_mul_digits (as bs : List Nat) :
    dval (mul_digits as bs) = dval as * dval bs := by
  rw [mul_digits, dval_normalize, dval_mulWords]

theorem normv_mul_digits {as bs : List Nat} (ha : ∀ a ∈ as, a < wordBase)
    (hb : ∀ b ∈ bs, b < wordBase) : NormV (mul_digits as bs) :=
  normv_normalize _ (mem_mulWords_lt as bs ha hb)

/- ===== DigitVector comparison ===== -/

/-- Lexicographic comparison of equal-length big-endian word lists. -/
def cmpRev : List Nat → List Nat → Ordering
  | [], [] => Ordering.eq
  | [], _ :: _ => Ordering.lt
  | _ :: _, [] => Ordering.gt
  | a :: as, b :: bs =>
    if a < b then Ordering.lt else if b < a then Ordering.gt else cmpRev as bs

/-- Modelled from the spec: comparison of normalized digit vectors
(compare_digits), lengths first, then digits most significant first. -/
def compare_digits (as bs : List Nat) : Ordering :=
  if as.length < bs.length then Ordering.lt
  else if bs.length < as.length then Ordering.gt
  else cmpRev as.reverse bs.reverse

/-- Value of a big-endian word list. -/
def dvalBE : List Nat → Nat
  | [] => 0
  | d :: ds => d * wordBase ^ ds.length + dvalBE ds

theorem dvalBE_append_singleton : ∀ (xs : List Nat) (d : Nat),
    dvalBE (xs ++ [d]) = wordBase * dvalBE xs + d := by
  intro xs
  induction xs with
  | nil =>
    intro d
    simp [dvalBE]
  | cons x t ih =>
    intro d
    rw [List.cons_append, dvalBE, ih, dvalBE, List.length_append, List.length_singleton,
      pow_succ]
    ring

theorem dval_eq_dvalBE_reverse : ∀ (ds : List Nat), dval ds = dvalBE ds.reverse := by
  intro ds
  induction ds with
  | nil => rfl
  | cons d t ih =>
    rw [dval, List.reverse_cons, dvalBE_append_singleton, ih]
    omega

theorem dvalBE_lt_pow : ∀ (xs : List Nat), (∀ d ∈ xs, d < wordBase) →
    dvalBE xs < wordBase ^ xs.length := by
  intro xs
  induction xs with
  | nil =>
    intro h
    rw [dvalBE, List.length_nil, pow_zero]
    omega
  | cons d t ih =>
    intro h
    have hd : d < wordBase := h d (List.mem_cons_self d t)
    have ihd := ih (fun x hx => h x (List.mem_cons_of_mem d hx))
    rw [dvalBE, List.length_cons, pow_succ]
    have hmul : d * wordBase ^ t.length ≤ 4294967295 * wordBase ^ t.length :=
      Nat.mul_le_mul_right _ (by rw [wordBase_lit] at hd; omega)
    rw [wordBase_lit] at *
    omega

theorem cmpRev_swap : ∀ (xs ys : List Nat), cmpRev ys xs = (cmpRev xs ys).swap := by
  intro xs
  induction xs with
  | nil =>
    intro ys
    cases ys with
    | nil => rfl
    | cons y t => rfl
  | cons x t ih =>
    intro ys
    cases ys with
    | nil => rfl
    | cons y s =>
      rw [cmpRev, cmpRev]
      by_cases h1 : x < y
      · rw [if_pos h1, if_neg (by omega), if_pos h1]
        rfl
      · by_cases h2 : y < x
        · rw [if_pos h2, if_neg h1, if_pos h2]
          rfl
        · rw [if_neg h1, if_neg h2, if_neg h2, if_neg h1, ih s]

theorem cmpRev_eq_val : ∀ (xs ys : List Nat), xs.length = ys.length →
    cmpRev xs ys = Ordering.eq → dvalBE xs = dvalBE ys := by
  intro xs
  induction xs with
  | nil =>
    intro ys hlen hc
    cases ys with
    | nil => rfl
    | cons y s => exact absurd hlen (by simp)
  | cons x t ih =>
    intro ys hlen hc
    cases ys with
    | nil => exact absurd hlen (by simp)
    | cons y s =>
      rw [cmpRev] at hc
      by_cases h1 : x < y
      · rw [if_pos h1] at hc
        exact absurd hc (by simp)
      · by_cases h2 : y < x
        · rw [if_neg h1, if_pos h2] at hc
          exact absurd hc (by simp)
        · rw [if_neg h1, if_neg h2] at hc
          have hxy : x = y := by omega
          have hlen2 : t.length = s.length := by
            rw [List.length_cons, List.length_cons] at hlen
            omega
          rw [dvalBE, dvalBE, hxy, hlen2, ih s hlen2 hc]

theorem cmpRev_lt_val : ∀ (xs ys : List Nat), xs.length = ys.length →
    (∀ d ∈ xs, d < wordBase) → (∀ d ∈ ys, d < wordBase) →
    cmpRev xs ys = Ordering.lt → dvalBE xs < dvalBE ys := by
  intro xs
  induction xs with
  | nil =>
    intro ys hlen hx hy hc
    cases ys with
    | nil => exact absurd hc (by rw [cmpRev]; simp)
    | cons y s => exact absurd hlen (by simp)
  | cons x t ih =>
    intro ys hlen hx hy hc
    cases ys with
    | nil => exact absurd hlen (by simp)
    | cons y s =>
      have hlen2 : t.length = s.length := by
        rw [List.length_cons, List.length_cons] at hlen
        omega
      rw [cmpRev] at hc
      by_cases h1 : x < y
      · have hbt : dvalBE t < wordBase ^ t.length :=
          dvalBE_lt_pow t (fun d hd => hx d (List.mem_cons_of_mem x hd))
        have hmul : (x + 1) * wordBase ^ t.length ≤ y * wordBase ^ t.length :=
          Nat.mul_le_mul_right _ (by omega)
        have hexp : (x + 1) * wordBase ^ t.length = x * wordBase ^ t.length +
            wordBase ^ t.length := by ring
        rw [dvalBE, dvalBE, hlen2] at *
        omega
      · by_cases h2 : y < x
        · rw [if_neg h1, if_pos h2] at hc
          exact absurd hc (by simp)
        · rw [if_neg h1, if_neg h2] at hc
          have hxy : x = y := by omega
          have hrec := ih s hlen2 (fun d hd => hx d (List.mem_cons_of_mem x hd))
            (fun d hd => hy d (List.mem_cons_of_mem y hd)) hc
          rw [dvalBE, dvalBE, hxy, hlen2]
          omega

theorem dval_ge_pow : ∀ (ds : List Nat), NormV ds → ds ≠ [] →
    wordBase ^ (ds.length - 1) ≤ dval ds := by
  intro ds
  induction ds with
  | nil =>
    intro h hne
    exact absurd rfl hne
  | cons d t ih =>
    intro h hne
    by_cases ht : t = []
    · subst ht
      have hdz : d ≠ 0 := by
        intro hc
        exact h.2 (by rw [hc, List.getLast?_singleton])
      rw [dval, dval, List.length_singleton]
      simp only [Nat.sub_self, pow_zero]
      omega
    · have hrec := ih (normv_tail h) ht
      have hlen : 1 ≤ t.length := List.length_pos.mpr ht
      rw [dval, List.length_cons]
      have hstep : wordBase ^ (t.length + 1 - 1) = wordBase ^ (t.length - 1) * wordBase := by
        have h1 : t.length + 1 - 1 = (t.length - 1) + 1 := by omega
        rw [h1, pow_succ]
      rw [hstep]
      have hmul : wordBase ^ (t.length - 1) * wordBase ≤ dval t * wordBase :=
        Nat.mul_le_mul_right _ hrec
      rw [wordBase_lit] at *
      omega

theorem compare_digits_eq_val {as bs : List Nat} (h : compare_digits as bs = Ordering.eq) :
    dval as = dval bs := by
  rw [compare_digits] at h
  by_cases h1 : as.length < bs.length
  · rw [if_pos h1] at h
    exact absurd h (by simp)
  · by_cases h2 : bs.length < as.length
    · rw [if_neg h1, if_pos h2] at h
      exact absurd h (by simp)
    · rw [if_neg h1, if_neg h2] at h
      have hlen : as.reverse.length = bs.reverse.length := by
        rw [List.length_reverse, List.length_reverse]
        omega
      rw [dval_eq_dvalBE_reverse, dval_eq_dvalBE_reverse]
      exact cmpRev_eq_val as.reverse bs.reverse hlen h

theorem compare_digits_lt_val {as bs : List Nat} (hNa : NormV as) (hNb : NormV bs)
    (h : compare_digits as bs = Ordering.lt) : dval as < dval bs := by
  rw [compare_digits] at h
  by_cases h1 : as.length < bs.length
  · have hbne : bs ≠ [] := by
      intro hc
      subst hc
      simp at h1
    have hup : dval as < wordBase ^ as.length := dval_lt_pow as hNa.1
    have hlow : wordBase ^ (bs.length - 1) ≤ dval bs := dval_ge_pow bs hNb hbne
    have hpow : wordBase ^ as.length ≤ wordBase ^ (bs.length - 1) :=
      Nat.pow_le_pow_right (by rw [wordBase_lit]; omega) (by omega)
    omega
  · by_cases h2 : bs.length < as.length
    · rw [if_neg h1, if_pos h2] at h
      exact absurd h (by simp)
    · rw [if_neg h1, if_neg h2] at h
      have hlen : as.reverse.length = bs.reverse.length := by
        rw [List.length_reverse, List.length_reverse]
        omega
      rw [dval_eq_dvalBE_reverse, dval_eq_dvalBE_reverse]
      exact cmpRev_lt_val as.reverse bs.reverse hlen
        (fun d hd => hNa.1 d (List.mem_reverse.mp hd))
        (fun d hd => hNb.1 d (List.mem_reverse.mp hd)) h

theorem compare_digits_gt_val {as bs : List Nat} (hNa : NormV as) (hNb : NormV bs)
    (h : compare_digits as bs = Ordering.gt) : dval bs < dval as := by
  rw [compare_digits] at h
  by_cases h1 : as.length < bs.length
  · rw [if_pos h1] at h
    exact absurd h (by simp)
  · by_cases h2 : bs.length < as.length
    · have hane : as ≠ [] := by
        intro hc
        subst hc
        simp at h2
      have hup : dval bs < wordBase ^ bs.length := dval_lt_pow bs hNb.1
      have hlow : wordBase ^ (as.length - 1) ≤ dval as := dval_ge_pow as hNa hane
      have hpow : wordBase ^ bs.length ≤ wordBase ^ (as.length - 1) :=
        Nat.pow_le_pow_right (by rw [wordBase_lit]; omega) (by omega)
      omega
    · rw [if_neg h1, if_neg h2] at h
      have hlen : bs.reverse.length = as.reverse.length := by
        rw [List.length_reverse, List.length_reverse]
        omega
      have hswap : cmpRev bs.reverse as.reverse = Ordering.lt := by
        rw [cmpRev_swap, h]
        rfl
      rw [dval_eq_dvalBE_reverse, dval_eq_dvalBE_reverse]
      exact cmpRev_lt_val bs.reverse as.reverse hlen
        (fun d hd => hNb.1 d (List.mem_reverse.mp hd))
        (fun d hd => hNa.1 d (List.mem_reverse.mp hd)) hswap

/- ===== Unsigned arithmetic core: long division ===== -/

/-- Bit i of the value of a digit vector. -/
def getBit (as : List Nat) (i : Nat) : Nat := dval as / 2 ^ i % 2

/-- Shift-subtract long division: process the bits of the dividend from most
to least significant, doubling quotient and remainder, and subtracting the
divisor whenever the remainder reaches it. -/
def divLoop (as bs : List Nat) : Nat → List Nat × List Nat → List Nat × List Nat
  | 0, qr => qr
  | i + 1, (q, r) =>
    if compare_digits (normalizeV (addWords r r (getBit as i))) bs = Ordering.lt then
      divLoop as bs i (normalizeV (addWords q q 0), normalizeV (addWords r r (getBit as i)))
    else
      divLoop as bs i (normalizeV (addWords q q 1),
        sub_digits (normalizeV (addWords r r (getBit as i))) bs)

/-- Modelled from the spec: long division of digit vectors yielding a quotient
and a remainder with dividend = quotient * divisor + remainder and remainder
below the divisor; a zero divisor is a reported error. -/
def divmod_digits (as bs : List Nat) : Option (List Nat × List Nat) :=
  if bs = [] then none
  else some (divLoop as bs (32 * as.length) ([], []))

/-- Quotient of the long division. -/
def div_digits (as bs : List Nat) : Option (List Nat) :=
  Option.map Prod.fst (divmod_digits as bs)

theorem divLoop_spec (as bs : List Nat) (hNb : NormV bs) :
    ∀ (i : Nat) (q r : List Nat), NormV q → NormV r →
      dval q * dval bs + dval r = dval as / 2 ^ i → dval r < dval bs →
      NormV (divLoop as bs i (q, r)).1 ∧ NormV (divLoop as bs i (q, r)).2 ∧
        dval (divLoop as bs i (q, r)).1 * dval bs + dval (divLoop as bs i (q, r)).2 =
          dval as ∧
        dval (divLoop as bs i (q, r)).2 < dval bs := by
  intro i
  induction i with
  | zero =>
    intro q r hNq hNr hinv hlt
    rw [pow_zero, Nat.div_one] at hinv
    exact ⟨hNq, hNr, hinv, hlt⟩
  | succ i ih =>
    intro q r hNq hNr hinv hlt
    have hbit : getBit as i ≤ 1 := by
      rw [getBit]
      omega
    have hstep : dval as / 2 ^ i = 2 * (dval as / 2 ^ (i + 1)) + getBit as i := by
      have hdd : dval as / 2 ^ i / 2 = dval as / 2 ^ (i + 1) := by
        rw [Nat.div_div_eq_div_mul, ← pow_succ]
      rw [getBit, ← hdd]
      omega
    have hr2v : dval (normalizeV (addWords r r (getBit as i))) =
        2 * dval r + getBit as i := by
      rw [dval_normalize, dval_addWords]
      omega
    have hNr2 : NormV (normalizeV (addWords r r (getBit as i))) :=
      normv_normalize _ (mem_addWords_lt r r _ hNr.1 hNr.1 hbit)
    rw [divLoop]
    by_cases hc : compare_digits (normalizeV (addWords r r (getBit as i))) bs = Ordering.lt
    · rw [if_pos hc]
      have hr2lt : dval (normalizeV (addWords r r (getBit as i))) < dval bs :=
        compare_digits_lt_val hNr2 hNb hc
      have hNq2 : NormV (normalizeV (addWords q q 0)) :=
        normv_normalize _ (mem_addWords_lt q q 0 hNq.1 hNq.1 (by omega))
      refine ih _ _ hNq2 hNr2 ?_ hr2lt
      have hexp : dval (normalizeV (addWords q q 0)) * dval bs =
          2 * (dval q * dval bs) := by
        rw [dval_normalize, dval_addWords]
        ring
      omega
    · rw [if_neg hc]
      have hr2ge : dval bs ≤ dval (normalizeV (addWords r r (getBit as i))) := by
        cases hc2 : compare_digits (normalizeV (addWords r r (getBit as i))) bs with
        | lt => exact absurd hc2 hc
        | eq => exact le_of_eq (compare_digits_eq_val hc2).symm
        | gt => exact le_of_lt (compare_digits_gt_val hNr2 hNb hc2)
      have hsub : dval (sub_digits (normalizeV (addWords r r (getBit as i))) bs) +
          dval bs = dval (normalizeV (addWords r r (getBit as i))) :=
        dval_sub_digits hNr2.1 hNb.1 hr2ge
      have hNr3 : NormV (sub_digits (normalizeV (addWords r r (getBit as i))) bs) :=
        normv_sub_digits hNr2.1 hNb.1
      have hNq2 : NormV (normalizeV (addWords q q 1)) :=
        normv_normalize _ (mem_addWords_lt q q 1 hNq.1 hNq.1 (by omega))
      refine ih _ _ hNq2 hNr3 ?_ ?_
      · have hexp : dval (normalizeV (addWords q q 1)) * dval bs =
            2 * (dval q * dval bs) + dval bs := by
          rw [dval_normalize, dval_addWords]
          ring
        omega
      · omega

theorem divmod_digits_spec (as bs : List Nat) (hNa : NormV as) (hNb : NormV bs)
    (hbne : bs ≠ []) :
    ∃ q r, divmod_digits as bs = some (q, r) ∧ NormV q ∧ NormV r ∧
      dval q = dval as / dval bs ∧ dval r = dval as % dval bs := by
  have hbpos : 0 < dval bs := by
    rcases Nat.eq_zero_or_pos (dval bs) with hz | hp
    · exact absurd (normv_nil_of_dval hNb hz) hbne
    · exact hp
  have hinit : dval ([] : List Nat) * dval bs + dval ([] : List Nat) =
      dval as / 2 ^ (32 * as.length) := by
    have hbound : dval as < wordBase ^ as.length := dval_lt_pow as hNa.1
    have hpow : wordBase ^ as.length = 2 ^ (32 * as.length) := by
      rw [pow_mul]
      rfl
    rw [dval, Nat.div_eq_of_lt (by omega)]
    omega
  have hN0 : NormV ([] : List Nat) := ⟨by simp, by simp⟩
  have h := divLoop_spec as bs hNb (32 * as.length) [] [] hN0 hN0 hinit
    (by rw [dval]; omega)
  refine ⟨(divLoop as bs (32 * as.length) ([], [])).1,
    (divLoop as bs (32 * as.length) ([], [])).2, ?_, h.1, h.2.1, ?_, ?_⟩
  · rw [divmod_digits, if_neg hbne]
  · have hq : dval as = dval (divLoop as bs (32 * as.length) ([], [])).2 +
        dval (divLoop as bs (32 * as.length) ([], [])).1 * dval bs := by
      have := h.2.2.1
      omega
    rw [hq, Nat.add_mul_div_right _ _ hbpos, Nat.div_eq_of_lt h.2.2.2, Nat.zero_add]
  · have hq : dval as = dval (divLoop as bs (32 * as.length) ([], [])).2 +
        dval (divLoop as bs (32 * as.length) ([], [])).1 * dval bs := by
      have := h.2.2.1
      omega
    rw [hq, Nat.add_mul_mod_self_right, Nat.mod_eq_of_lt h.2.2.2]

/- ===== SBI: sign-magnitude signed big integer ===== -/

/-- Signed big integer: a sign tag with an unsigned magnitude vector. -/
structure SBI where
  sign : Int
  mag : List Nat
deriving DecidableEq

/-- Well-formedness: the sign is -1, 0 or 1, the magnitude is normalized, and
the sign is 0 exactly when the magnitude is the zero vector. -/
def WFS (x : SBI) : Prop :=
  (x.sign = -1 ∨ x.sign = 0 ∨ x.sign = 1) ∧ NormV x.mag ∧ (x.sign = 0 ↔ x.mag = [])

/-- Conceptual infinite-precision value of a signed big integer. -/
def sval (x : SBI) : Int := x.sign * (dval x.mag : Int)

/-- Conversion from a native signed integer into the signed type. -/
def intSBI (v : Int) : SBI :=
  if v = 0 then ⟨0, []⟩
  else if 0 < v then ⟨1, natWords v.toNat⟩
  else ⟨-1, natWords (-v).toNat⟩

theorem natWords_ne_nil {n : Nat} (hn : n ≠ 0) : natWords n ≠ [] := by
  intro hc
  have h := dval_natWords n
  rw [hc, dval] at h
  exact hn h.symm

theorem sval_intSBI (v : Int) : sval (intSBI v) = v := by
  rw [intSBI]
  by_cases h0 : v = 0
  · rw [if_pos h0, h0]
    show (0 : Int) * ((dval [] : Nat) : Int) = 0
    rw [Int.zero_mul]
  · rw [if_neg h0]
    by_cases hp : 0 < v
    · rw [if_pos hp]
      show (1 : Int) * ((dval (natWords v.toNat) : Nat) : Int) = v
      rw [dval_natWords]
      omega
    · rw [if_neg hp]
      show (-1 : Int) * ((dval (natWords (-v).toNat) : Nat) : Int) = v
      rw [dval_natWords]
      omega

theorem wfs_intSBI (v : Int) : WFS (intSBI v) := by
  rw [intSBI]
  by_cases h0 : v = 0
  · rw [if_pos h0]
    exact ⟨Or.inr (Or.inl rfl), ⟨by simp, by simp⟩, by simp⟩
  · rw [if_neg h0]
    by_cases hp : 0 < v
    · rw [if_pos hp]
      refine ⟨Or.inr (Or.inr rfl), norm_natWords _, ?_⟩
      constructor
      · intro hc
        exact absurd hc (by simp)
      · intro hc
        exact absurd hc (natWords_ne_nil (by omega))
    · rw [if_neg hp]
      refine ⟨Or.inl rfl, norm_natWords _, ?_⟩
      constructor
      · intro hc
        exact absurd hc (by simp)
      · intro hc
        exact absurd hc (natWords_ne_nil (by omega))

theorem dval_pos_of_ne_nil {ds : List Nat} (hN : NormV ds) (hne : ds ≠ []) :
    0 < dval ds := by
  rcases Nat.eq_zero_or_pos (dval ds) with hz | hp
  · exact absurd (normv_nil_of_dval hN hz) hne
  · exact hp

theorem sbi_unique : ∀ (x y : SBI), WFS x → WFS y → sval x = sval y → x = y := by
  intro x y hx hy hv
  obtain ⟨xs, xm⟩ := x
  obtain ⟨ys, ym⟩ := y
  rw [sval, sval] at hv
  simp only at hv
  obtain ⟨hxs, hxN, hxiff⟩ := hx
  obtain ⟨hys, hyN, hyiff⟩ := hy
  simp only at hxs hxN hxiff hys hyN hyiff
  by_cases hx0 : xs = 0
  · have hxm : xm = [] := hxiff.mp hx0
    subst hxm
    have hv0 : ys * ((dval ym : Nat) : Int) = 0 := by
      rw [← hv, hx0]
      simp [dval]
    have hy0 : ys = 0 := by
      by_contra hyne
      have hymne : ym ≠ [] := fun hc => hyne (hyiff.mpr hc)
      have := dval_pos_of_ne_nil hyN hymne
      rcases hys with h | h | h
      · rw [h] at hv0
        omega
      · exact hyne h
      · rw [h] at hv0
        omega
    have hym : ym = [] := hyiff.mp hy0
    rw [hx0, hy0, hym]
  · by_cases hy0 : ys = 0
    · have hym : ym = [] := hyiff.mp hy0
      subst hym
      have hv0 : xs * ((dval xm : Nat) : Int) = 0 := by
        rw [hv, hy0]
        simp [dval]
      have hxmne : xm ≠ [] := fun hc => hx0 (hxiff.mpr hc)
      have := dval_pos_of_ne_nil hxN hxmne
      rcases hxs with h | h | h
      · rw [h] at hv0
        omega
      · exact absurd h hx0
      · rw [h] at hv0
        omega
    · have hxmne : xm ≠ [] := fun hc => hx0 (hxiff.mpr hc)
      have hymne : ym ≠ [] := fun hc => hy0 (hyiff.mpr hc)
      have hxp := dval_pos_of_ne_nil hxN hxmne
      have hyp := dval_pos_of_ne_nil hyN hymne
      have hsame : xs = ys ∧ dval xm = dval ym := by
        rcases hxs with h1 | h1 | h1 <;> rcases hys with h2 | h2 | h2 <;>
          rw [h1, h2] at hv ⊢ <;> first
          | exact absurd rfl hx0
          | exact absurd rfl hy0
          | exact ⟨rfl, by omega⟩
          | omega
      rw [hsame.1, normv_unique hxN hyN hsame.2]

/-- Negation of a signed big integer: flip the sign, keep the magnitude. -/
def sbiNeg (x : SBI) : SBI := ⟨-x.sign, x.mag⟩

/-- Modelled from the spec: signed addition. Same-sign operands add their
magnitudes and keep the sign; differing-sign operands subtract the smaller
magnitude from the larger and take the sign of the larger-magnitude operand;
a zero result normalizes its sign to zero. -/
def sadd (x y : SBI) : SBI :=
  if x.sign = 0 then y
  else if y.sign = 0 then x
  else if x.sign = y.sign then ⟨x.sign, add_digits x.mag y.mag⟩
  else if compare_digits x.mag y.mag = Ordering.eq then ⟨0, []⟩
  else if compare_digits x.mag y.mag = Ordering.gt then ⟨x.sign, sub_digits x.mag y.mag⟩
  else ⟨y.sign, sub_digits y.mag x.mag⟩

/-- Modelled from the spec: signed subtraction as addition of the negation. -/
def ssub (x y : SBI) : SBI := sadd x (sbiNeg y)

/-- Modelled from the spec: signed multiplication, the magnitude product with
the product of the signs, zero when either operand is zero. -/
def smul (x y : SBI) : SBI :=
  if x.sign = 0 ∨ y.sign = 0 then ⟨0, []⟩
  else ⟨x.sign * y.sign, mul_digits x.mag y.mag⟩

/-- Modelled from the spec: truncating signed division, the default division
mode rounding toward zero: magnitude quotient with the product of the signs;
a zero divisor is a reported error. -/
def sdiv (x y : SBI) : Option SBI :=
  if y.sign = 0 then none
  else
    Option.map
      (fun q => if q = [] then (⟨0, []⟩ : SBI) else ⟨x.sign * y.sign, q⟩)
      (div_digits x.mag y.mag)

theorem sval_mk (s : Int) (m : List Nat) : sval ⟨s, m⟩ = s * ((dval m : Nat) : Int) :=
  rfl

theorem sadd_spec (x y : SBI) (hx : WFS x) (hy : WFS y) :
    WFS (sadd x y) ∧ sval (sadd x y) = sval x + sval y := by
  obtain ⟨hxs, hxN, hxiff⟩ := hx
  obtain ⟨hys, hyN, hyiff⟩ := hy
  rw [sadd]
  by_cases hx0 : x.sign = 0
  · rw [if_pos hx0]
    have hxm := hxiff.mp hx0
    have hzx : sval x = 0 := by
      rw [sval, hx0, Int.zero_mul]
    rw [hzx, Int.zero_add]
    exact ⟨⟨hys, hyN, hyiff⟩, rfl⟩
  · rw [if_neg hx0]
    by_cases hy0 : y.sign = 0
    · rw [if_pos hy0]
      have hzy : sval y = 0 := by
        rw [sval, hy0, Int.zero_mul]
      rw [hzy, Int.add_zero]
      exact ⟨⟨hxs, hxN, hxiff⟩, rfl⟩
    · rw [if_neg hy0]
      have hxmne : x.mag ≠ [] := fun hc => hx0 (hxiff.mpr hc)
      have hymne : y.mag ≠ [] := fun hc => hy0 (hyiff.mpr hc)
      have hxp := dval_pos_of_ne_nil hxN hxmne
      have hyp := dval_pos_of_ne_nil hyN hymne
      by_cases hsame : x.sign = y.sign
      · rw [if_pos hsame]
        refine ⟨⟨hxs, normv_add_digits hxN.1 hyN.1, ?_⟩, ?_⟩
        · constructor
          · intro hc
            exact absurd hc hx0
          · intro hc
            exfalso
            have hce : add_digits x.mag y.mag = [] := hc
            have hda := dval_add_digits x.mag y.mag
            rw [hce, dval] at hda
            omega
        · rw [sval_mk, dval_add_digits, sval, sval, ← hsame]
          push_cast
          ring
      · rw [if_neg hsame]
        have hcases : (x.sign = 1 ∧ y.sign = -1) ∨ (x.sign = -1 ∧ y.sign = 1) := by
          omega
        by_cases hc1 : compare_digits x.mag y.mag = Ordering.eq
        · rw [if_pos hc1]
          have heq := compare_digits_eq_val hc1
          refine ⟨⟨Or.inr (Or.inl rfl), ⟨by simp, by simp⟩, by simp⟩, ?_⟩
          rw [sval_mk, sval, sval, dval]
          rcases hcases with ⟨h1, h2⟩ | ⟨h1, h2⟩ <;> rw [h1, h2, heq] <;> ring
        · rw [if_neg hc1]
          by_cases hc2 : compare_digits x.mag y.mag = Ordering.gt
          · rw [if_pos hc2]
            have hgt := compare_digits_gt_val hxN hyN hc2
            have hsub := dval_sub_digits hxN.1 hyN.1 (le_of_lt hgt)
            have hsubi : ((dval (sub_digits x.mag y.mag) : Nat) : Int) +
                ((dval y.mag : Nat) : Int) = ((dval x.mag : Nat) : Int) := by
              exact_mod_cast hsub
            refine ⟨⟨hxs, normv_sub_digits hxN.1 hyN.1, ?_⟩, ?_⟩
            · constructor
              · intro hc
                exact absurd hc hx0
              · intro hc
                exfalso
                have hce : sub_digits x.mag y.mag = [] := hc
                rw [hce, dval] at hsub
                omega
            · rw [sval_mk, sval, sval]
              rcases hcases with ⟨h1, h2⟩ | ⟨h1, h2⟩ <;> rw [h1, h2] <;> omega
          · rw [if_neg hc2]
            have hc3 : compare_digits x.mag y.mag = Ordering.lt := by
              cases hcc : compare_digits x.mag y.mag with
              | lt => rfl
              | eq => exact absurd hcc hc1
              | gt => exact absurd hcc hc2
            have hlt := compare_digits_lt_val hxN hyN hc3
            have hsub := dval_sub_digits hyN.1 hxN.1 (le_of_lt hlt)
            have hsubi : ((dval (sub_digits y.mag x.mag) : Nat) : Int) +
                ((dval x.mag : Nat) : Int) = ((dval y.mag : Nat) : Int) := by
              exact_mod_cast hsub
            refine ⟨⟨hys, normv_sub_digits hyN.1 hxN.1, ?_⟩, ?_⟩
            · constructor
              · intro hc
                exact absurd hc hy0
              · intro hc
                exfalso
                have hce : sub_digits y.mag x.mag = [] := hc
                rw [hce, dval] at hsub
                omega
            · rw [sval_mk, sval, sval]
              rcases hcases with ⟨h1, h2⟩ | ⟨h1, h2⟩ <;> rw [h1, h2] <;> omega

theorem wfs_sbiNeg {y : SBI} (hy : WFS y) : WFS (sbiNeg y) := by
  obtain ⟨hys, hyN, hyiff⟩ := hy
  refine ⟨?_, hyN, ?_⟩
  · show -y.sign = -1 ∨ -y.sign = 0 ∨ -y.sign = 1
    omega
  · show -y.sign = 0 ↔ y.mag = []
    constructor
    · intro hc
      exact hyiff.mp (by omega)
    · intro hc
      have := hyiff.mpr hc
      omega

theorem sval_sbiNeg (y : SBI) : sval (sbiNeg y) = -sval y := by
  show -y.sign * ((dval y.mag : Nat) : Int) = -(y.sign * ((dval y.mag : Nat) : Int))
  ring

theorem ssub_spec (x y : SBI) (hx : WFS x) (hy : WFS y) :
    WFS (ssub x y) ∧ sval (ssub x y) = sval x - sval y := by
  have h := sadd_spec x (sbiNeg y) hx (wfs_sbiNeg hy)
  rw [ssub]
  refine ⟨h.1, ?_⟩
  rw [h.2, sval_sbiNeg]
  ring

theorem smul_spec (x y : SBI) (hx : WFS x) (hy : WFS y) :
    WFS (smul x y) ∧ sval (smul x y) = sval x * sval y := by
  obtain ⟨hxs, hxN, hxiff⟩ := hx
  obtain ⟨hys, hyN, hyiff⟩ := hy
  rw [smul]
  by_cases h0 : x.sign = 0 ∨ y.sign = 0
  · rw [if_pos h0]
    refine ⟨⟨Or.inr (Or.inl rfl), ⟨by simp, by simp⟩, by simp⟩, ?_⟩
    rw [sval_mk, dval]
    rcases h0 with h | h
    · have hzx : sval x = 0 := by rw [sval, h, Int.zero_mul]
      rw [hzx, Int.zero_mul]
      simp
    · have hzy : sval y = 0 := by rw [sval, h, Int.zero_mul]
      rw [hzy, Int.mul_zero]
      simp
  · rw [if_neg h0]
    push_neg at h0
    have hxmne : x.mag ≠ [] := fun hc => h0.1 (hxiff.mpr hc)
    have hymne : y.mag ≠ [] := fun hc => h0.2 (hyiff.mpr hc)
    have hxp := dval_pos_of_ne_nil hxN hxmne
    have hyp := dval_pos_of_ne_nil hyN hymne
    refine ⟨⟨?_, normv_mul_digits hxN.1 hyN.1, ?_⟩, ?_⟩
    · show x.sign * y.sign = -1 ∨ x.sign * y.sign = 0 ∨ x.sign * y.sign = 1
      rcases hxs with h1 | h1 | h1 <;> rcases hys with h2 | h2 | h2 <;> rw [h1, h2] <;>
        first
        | exact absurd h1 h0.1
        | exact absurd h2 h0.2
        | decide
    · constructor
      · intro hc
        exfalso
        have hce : x.sign * y.sign = 0 := hc
        rcases hxs with h1 | h1 | h1 <;> rcases hys with h2 | h2 | h2 <;>
          first
          | exact h0.1 h1
          | exact h0.2 h2
          | (rw [h1, h2] at hce; exact absurd hce (by decide))
      · intro hc
        exfalso
        have hce : mul_digits x.mag y.mag = [] := hc
        have hmd := dval_mul_digits x.mag y.mag
        rw [hce, dval] at hmd
        have := Nat.mul_pos hxp hyp
        omega
    · rw [sval_mk, dval_mul_digits, sval, sval]
      push_cast
      ring

theorem tdiv_sign_mul (s1 s2 : Int) (a b : Nat)
    (hs1 : s1 = -1 ∨ s1 = 0 ∨ s1 = 1) (hs2 : s2 = -1 ∨ s2 = 1) :
    Int.tdiv (s1 * (a : Int)) (s2 * (b : Int)) = (s1 * s2) * ((a / b : Nat) : Int) := by
  have hc : ((a / b : Nat) : Int) = Int.tdiv (a : Int) (b : Int) := by
    exact_mod_cast Int.ofNat_tdiv a b
  rcases hs1 with h1 | h1 | h1 <;> rcases hs2 with h2 | h2 <;> subst h1 <;> subst h2 <;>
    simp only [Int.one_mul, neg_one_mul, Int.zero_mul, Int.zero_tdiv, Int.neg_tdiv,
      Int.tdiv_neg, neg_neg, hc] <;> ring

theorem sdiv_spec (x y : SBI) (hx : WFS x) (hy : WFS y) (hy0 : y.sign ≠ 0) :
    ∃ z, sdiv x y = some z ∧ WFS z ∧ sval z = Int.tdiv (sval x) (sval y) := by
  obtain ⟨hxs, hxN, hxiff⟩ := hx
  obtain ⟨hys, hyN, hyiff⟩ := hy
  have hymne : y.mag ≠ [] := fun hc => hy0 (hyiff.mpr hc)
  have hyp := dval_pos_of_ne_nil hyN hymne
  obtain ⟨q, r, hdm, hNq, hNr, hq, hr⟩ := divmod_digits_spec x.mag y.mag hxN hyN hymne
  have hdd : div_digits x.mag y.mag = some q := by
    rw [div_digits, hdm]
    rfl
  have hs2 : y.sign = -1 ∨ y.sign = 1 := by
    rcases hys with h | h | h
    · exact Or.inl h
    · exact absurd h hy0
    · exact Or.inr h
  have htd : Int.tdiv (sval x) (sval y) =
      (x.sign * y.sign) * ((dval x.mag / dval y.mag : Nat) : Int) :=
    tdiv_sign_mul x.sign y.sign (dval x.mag) (dval y.mag) hxs hs2
  rw [sdiv, if_neg hy0, hdd, Option.map_some']
  by_cases hq0 : q = []
  · rw [if_pos hq0]
    refine ⟨_, rfl, ⟨Or.inr (Or.inl rfl), ⟨by simp, by simp⟩, by simp⟩, ?_⟩
    rw [sval_mk, dval, htd]
    have hqz : dval x.mag / dval y.mag = 0 := by
      rw [← hq, hq0, dval]
    rw [hqz]
    simp
  · rw [if_neg hq0]
    have hqp : 0 < dval q := dval_pos_of_ne_nil hNq hq0
    have hx0 : x.sign ≠ 0 := by
      intro hc
      have hxm := hxiff.mp hc
      rw [hxm, dval, Nat.zero_div] at hq
      exact hq0 (normv_nil_of_dval hNq hq)
    refine ⟨_, rfl, ⟨?_, hNq, ?_⟩, ?_⟩
    · show x.sign * y.sign = -1 ∨ x.sign * y.sign = 0 ∨ x.sign * y.sign = 1
      rcases hxs with h1 | h1 | h1 <;> rcases hys with h2 | h2 | h2 <;> rw [h1, h2] <;>
        first
        | exact absurd h1 hx0
        | exact absurd h2 hy0
        | decide
    · constructor
      · intro hc
        exfalso
        have hce : x.sign * y.sign = 0 := hc
        rcases hxs with h1 | h1 | h1 <;> rcases hys with h2 | h2 | h2 <;>
          first
          | exact hx0 h1
          | exact hy0 h2
          | (rw [h1, h2] at hce; exact absurd hce (by decide))
      · intro hc
        exact absurd hc hq0
    · rw [sval_mk, hq, htd]

theorem intSBI_sign_ne_zero {v : Int} (hv : v ≠ 0) : (intSBI v).sign ≠ 0 := by
  rw [intSBI, if_neg hv]
  by_cases hp : 0 < v
  · rw [if_pos hp]
    simp
  · rw [if_neg hp]
    simp

/-- C10: conversion from native fixed-width integers is a homomorphism for
arithmetic: for native operands whose native sum, difference, product, or
quotient does not overflow (divisor nonzero for quotients, unsigned
subtraction only with minuend at least subtrahend), the big-integer operation
on the converted operands equals the conversion of the native result, for
both the unsigned and the signed type. -/
theorem primitive_arith_homomorphism (a b : Nat) (x y : Int) :
    (a + b < 2 ^ 64 → add_digits (natWords a) (natWords b) = natWords (a + b)) ∧
    (b ≤ a → a < 2 ^ 128 → sub_digits (natWords a) (natWords b) = natWords (a - b)) ∧
    (a < 2 ^ 64 → b < 2 ^ 64 → mul_digits (natWords a) (natWords b) = natWords (a * b)) ∧
    (b ≠ 0 → a < 2 ^ 128 → b < 2 ^ 128 →
      div_digits (natWords a) (natWords b) = some (natWords (a / b))) ∧
    (-(2 ^ 63) ≤ x → x < 2 ^ 63 → -(2 ^ 63) ≤ y → y < 2 ^ 63 →
      -(2 ^ 63) ≤ x + y → x + y < 2 ^ 63 →
      sadd (intSBI x) (intSBI y) = intSBI (x + y)) ∧
    (-(2 ^ 127) ≤ x → x < 2 ^ 127 → -(2 ^ 127) ≤ y → y < 2 ^ 127 →
      -(2 ^ 127) ≤ x - y → x - y < 2 ^ 127 →
      ssub (intSBI x) (intSBI y) = intSBI (x - y)) ∧
    (-(2 ^ 63) ≤ x → x < 2 ^ 63 → -(2 ^ 63) ≤ y → y < 2 ^ 63 →
      smul (intSBI x) (intSBI y) = intSBI (x * y)) ∧
    (y ≠ 0 → -(2 ^ 127) ≤ x → x < 2 ^ 127 → -(2 ^ 127) ≤ y → y < 2 ^ 127 →
      ¬(x = -(2 ^ 127) ∧ y = -1) →
      sdiv (intSBI x) (intSBI y) = some (intSBI (Int.tdiv x y))) := by
  refine ⟨?_, ?_, ?_, ?_, ?_, ?_, ?_, ?_⟩
  · intro hab
    refine normv_unique (normv_add_digits (norm_natWords a).1 (norm_natWords b).1)
      (norm_natWords (a + b)) ?_
    rw [dval_add_digits, dval_natWords, dval_natWords, dval_natWords]
  · intro hba ha
    have hle : dval (natWords b) ≤ dval (natWords a) := by
      rw [dval_natWords, dval_natWords]
      exact hba
    refine normv_unique (normv_sub_digits (norm_natWords a).1 (norm_natWords b).1)
      (norm_natWords (a - b)) ?_
    have hd := dval_sub_digits (norm_natWords a).1 (norm_natWords b).1 hle
    rw [dval_natWords, dval_natWords] at hd
    rw [dval_natWords]
    omega
  · intro ha hb
    refine normv_unique (normv_mul_digits (norm_natWords a).1 (norm_natWords b).1)
      (norm_natWords (a * b)) ?_
    rw [dval_mul_digits, dval_natWords, dval_natWords, dval_natWords]
  · intro hb ha hb2
    obtain ⟨q, r, hdm, hNq, hNr, hq, hr⟩ :=
      divmod_digits_spec (natWords a) (natWords b) (norm_natWords a) (norm_natWords b)
        (natWords_ne_nil hb)
    rw [div_digits, hdm, Option.map_some']
    congr 1
    refine normv_unique hNq (norm_natWords (a / b)) ?_
    rw [hq, dval_natWords, dval_natWords, dval_natWords]
  · intro h1 h2 h3 h4 h5 h6
    have hs := sadd_spec (intSBI x) (intSBI y) (wfs_intSBI x) (wfs_intSBI y)
    refine sbi_unique _ _ hs.1 (wfs_intSBI (x + y)) ?_
    rw [hs.2, sval_intSBI, sval_intSBI, sval_intSBI]
  · intro h1 h2 h3 h4 h5 h6
    have hs := ssub_spec (intSBI x) (intSBI y) (wfs_intSBI x) (wfs_intSBI y)
    refine sbi_unique _ _ hs.1 (wfs_intSBI (x - y)) ?_
    rw [hs.2, sval_intSBI, sval_intSBI, sval_intSBI]
  · intro h1 h2 h3 h4
    have hs := smul_spec (intSBI x) (intSBI y) (wfs_intSBI x) (wfs_intSBI y)
    refine sbi_unique _ _ hs.1 (wfs_intSBI (x * y)) ?_
    rw [hs.2, sval_intSBI, sval_intSBI, sval_intSBI]
  · intro hy0 h1 h2 h3 h4 h5
    obtain ⟨z, hz, hWz, hvz⟩ := sdiv_spec (intSBI x) (intSBI y) (wfs_intSBI x)
      (wfs_intSBI y) (intSBI_sign_ne_zero hy0)
    rw [hz]
    congr 1
    refine sbi_unique _ _ hWz (wfs_intSBI (Int.tdiv x y)) ?_
    rw [hvz, sval_intSBI, sval_intSBI, sval_intSBI]

/-- Witness for C10 at the operands 10 and 3 (unsigned) and -7 and 3
(signed). -/
theorem primitive_arith_homomorphism_witness :
    add_digits (natWords 10) (natWords 3) = natWords 13 ∧
      sub_digits (natWords 10) (natWords 3) = natWords 7 ∧
      mul_digits (natWords 10) (natWords 3) = natWords 30 ∧
      div_digits (natWords 10) (natWords 3) = some (natWords 3) ∧
      sadd (intSBI (-7)) (intSBI 3) = intSBI (-4) ∧
      ssub (intSBI (-7)) (intSBI 3) = intSBI (-10) ∧
      smul (intSBI (-7)) (intSBI 3) = intSBI (-21) ∧
      sdiv (intSBI (-7)) (intSBI 3) = some (intSBI (-2)) := by
  have h := primitive_arith_homomorphism 10 3 (-7) 3
  refine ⟨h.1 (by decide), h.2.1 (by decide) (by decide), h.2.2.1 (by decide) (by decide),
    h.2.2.2.1 (by decide) (by decide) (by decide), ?_, ?_, ?_, ?_⟩
  · exact h.2.2.2.2.1 (by decide) (by decide) (by decide) (by decide) (by decide) (by decide)
  · exact h.2.2.2.2.2.1 (by decide) (by decide) (by decide) (by decide) (by decide) (by decide)
  · exact h.2.2.2.2.2.2.1 (by decide) (by decide) (by decide) (by decide)
  · exact h.2.2.2.2.2.2.2 (by decide) (by decide) (by decide) (by decide) (by decide) (by decide)

/-- Modelled from the spec: the wire token alphabet of the serialized form: a
sequence header carrying an element-count hint, a sequence end, an unsigned
32-bit word, a signed byte, a tuple header and a tuple end. -/
inductive Token where
  | seq (hint : Nat) : Token
  | seqEnd : Token
  | u32 (w : Nat) : Token
  | i8 (s : Int) : Token
  | tuple (len : Nat) : Token
  | tupleEnd : Token
deriving DecidableEq

/-- Modelled from the spec: serialization of the unsigned type emits its
little-endian 32-bit words as a sequence whose element-count hint is the
number of words. -/
def serialize_biguint (d : List Nat) : List Token :=
  Token.seq d.length :: d.map Token.u32 ++ [Token.seqEnd]

/-- Modelled from the spec: serialization of the signed type emits a
2-element tuple of the sign as a signed byte followed by the magnitude word
sequence. -/
def serialize_bigint (x : SBI) : List Token :=
  Token.tuple 2 :: Token.i8 x.sign :: serialize_biguint x.mag ++ [Token.tupleEnd]

/-- Modelled from the spec: word-sequence decoding reads word tokens until
the sequence end, never consulting any element-count hint, so no storage
proportional to the hint is ever requested. -/
def deWords : List Token → Option (List Nat × List Token)
  | Token.u32 w :: rest => Option.map (fun p => (w :: p.1, p.2)) (deWords rest)
  | Token.seqEnd :: rest => some ([], rest)
  | _ => none

/-- Modelled from the spec: deserialization of the unsigned type accepts a
sequence header with an arbitrary hint and decodes the words that actually
follow. -/
def deserialize_biguint : List Token → Option (List Nat × List Token)
  | Token.seq _ :: rest => deWords rest
  | _ => none

/-- Continuation of signed deserialization after the sign byte: the decoded
magnitude must be followed by the tuple end. -/
def deAfterSeq (s : Int) : Option (List Nat × List Token) → Option (SBI × List Token)
  | some (ws, Token.tupleEnd :: rest) => some (⟨s, ws⟩, rest)
  | _ => none

/-- Modelled from the spec: deserialization of the signed type reads the
tuple header, the sign byte, the magnitude sequence and the tuple end. -/
def deserialize_bigint : List Token → Option (SBI × List Token)
  | Token.tuple len :: Token.i8 s :: rest =>
      if len = 2 then deAfterSeq s (deserialize_biguint rest) else none
  | _ => none

/-- The 17-word little-endian reference vector for 100 factorial from the
test corpus, generated independently by arbitrary-precision arithmetic. -/
def FACTORIAL_100 : List Nat :=
  [0x00000000, 0x00000000, 0x00000000, 0x2735c61a, 0xee8b02ea, 0xb3b72ed2,
   0x9420c6ec, 0x45570cca, 0xdf103917, 0x943a321c, 0xeb21b5b2, 0x66ef9a70,
   0xa40d16e9, 0x28d54bbd, 0xdc240695, 0x964ec395, 0x1b30]

/-- C1: serialization of the literal values is exactly the recorded token
sequences: unsigned zero is an empty sequence, unsigned one the single word
1, signed zero the tuple (sign 0, empty sequence), signed one (sign 1, word
1), signed negative one (sign -1, word 1), and unsigned 100 factorial is the
17-word vector of the test corpus, keeping its three low-order zero words
and ending at the nonzero high word. -/
theorem serialization_literals :
    serialize_biguint (natWords 0) = [Token.seq 0, Token.seqEnd] ∧
    serialize_biguint (natWords 1) = [Token.seq 1, Token.u32 1, Token.seqEnd] ∧
    serialize_bigint (intSBI 0) =
      [Token.tuple 2, Token.i8 0, Token.seq 0, Token.seqEnd, Token.tupleEnd] ∧
    serialize_bigint (intSBI 1) =
      [Token.tuple 2, Token.i8 1, Token.seq 1, Token.u32 1, Token.seqEnd,
        Token.tupleEnd] ∧
    serialize_bigint (intSBI (-1)) =
      [Token.tuple 2, Token.i8 (-1), Token.seq 1, Token.u32 1, Token.seqEnd,
        Token.tupleEnd] ∧
    natWords (Nat.factorial 100) = FACTORIAL_100 ∧
    FACTORIAL_100.length = 17 := by
  refine ⟨rfl, rfl, rfl, rfl, rfl, by decide, rfl⟩

theorem deWords_encode (ws : List Nat) (rest : List Token) :
    deWords (ws.map Token.u32 ++ Token.seqEnd :: rest) = some (ws, rest) := by
  induction ws with
  | nil =>
    rw [List.map_nil, List.nil_append]
    simp only [deWords]
  | cons w t ih =>
    rw [List.map_cons, List.cons_append]
    simp only [deWords]
    rw [ih, Option.map_some']

/-- C6: a deserializer of either big-integer type, given a sequence whose
advertised element-count hint is any value up to the maximum representable
one, ignores the hint entirely: the correctly terminated actual word
sequence still decodes to exactly those words, so a hostile hint larger than
the supplied data neither fails the decode nor influences its result. -/
theorem bad_size_hint_decodes (hint : Nat) (ws : List Nat) (x : SBI)
    (hhint : hint < 2 ^ 64) :
    deserialize_biguint (Token.seq hint :: ws.map Token.u32 ++ [Token.seqEnd])
      = some (ws, []) ∧
    deserialize_bigint (Token.tuple 2 :: Token.i8 x.sign :: Token.seq hint ::
        x.mag.map Token.u32 ++ [Token.seqEnd, Token.tupleEnd])
      = some (x, []) := by
  refine ⟨?_, ?_⟩
  · simp only [deserialize_biguint]
    exact deWords_encode ws []
  · have h1 : deserialize_biguint (Token.seq hint ::
        x.mag.map Token.u32 ++ [Token.seqEnd, Token.tupleEnd])
        = some (x.mag, [Token.tupleEnd]) := by
      simp only [deserialize_biguint]
      exact deWords_encode x.mag [Token.tupleEnd]
    show deAfterSeq x.sign (deserialize_biguint (Token.seq hint ::
        x.mag.map Token.u32 ++ [Token.seqEnd, Token.tupleEnd])) = some (x, [])
    rw [h1]
    rfl

/-- Witness for C6 at the maximum representable hint with one actual word,
for both the unsigned stream and the signed stream of the value one. -/
theorem bad_size_hint_decodes_witness :
    2 ^ 64 - 1 < 2 ^ 64 ∧
    deserialize_biguint (Token.seq (2 ^ 64 - 1) ::
        [(1 : Nat)].map Token.u32 ++ [Token.seqEnd]) = some ([1], []) ∧
    deserialize_bigint (Token.tuple 2 :: Token.i8 (SBI.mk 1 [1]).sign ::
        Token.seq (2 ^ 64 - 1) :: (SBI.mk 1 [1]).mag.map Token.u32 ++
        [Token.seqEnd, Token.tupleEnd]) = some (SBI.mk 1 [1], []) := by
  have h := bad_size_hint_decodes (2 ^ 64 - 1) [1] (SBI.mk 1 [1]) (by decide)
  exact ⟨by decide, h.1, h.2⟩

/-- Test of a token for being a 32-bit word token. -/
def isU32 : Token → Bool
  | Token.u32 _ => true
  | _ => false

theorem filter_map_u32 (d : List Nat) :
    List.filter isU32 (d.map Token.u32) = d.map Token.u32 := by
  induction d with
  | nil => rfl
  | cons w t ih =>
    rw [List.map_cons, List.filter_cons]
    simp only [isU32, if_true, ih]

theorem filter_serialize_biguint (d : List Nat) :
    List.filter isU32 (serialize_biguint d) = d.map Token.u32 := by
  rw [serialize_biguint, List.filter_append, List.filter_cons]
  simp [isU32, filter_map_u32]

theorem filter_serialize_bigint (x : SBI) :
    List.filter isU32 (serialize_bigint x) = x.mag.map Token.u32 := by
  rw [serialize_bigint, List.filter_append, List.filter_cons, List.filter_cons]
  simp [isU32, filter_serialize_biguint]

theorem mem_serialize_biguint {t : Token} {d : List Nat}
    (h : t ∈ serialize_biguint d) :
    t = Token.seq d.length ∨ (∃ w ∈ d, t = Token.u32 w) ∨ t = Token.seqEnd := by
  rw [serialize_biguint] at h
  rcases List.mem_cons.mp h with h1 | h2
  · exact Or.inl h1
  rcases List.mem_append.mp h2 with h3 | h4
  · obtain ⟨w, hw, hwt⟩ := List.mem_map.mp h3
    exact Or.inr (Or.inl ⟨w, hw, hwt.symm⟩)
  · exact Or.inr (Or.inr (List.mem_singleton.mp h4))

theorem mem_serialize_bigint {t : Token} {x : SBI}
    (h : t ∈ serialize_bigint x) :
    t = Token.tuple 2 ∨ t = Token.i8 x.sign ∨ t ∈ serialize_biguint x.mag ∨
      t = Token.tupleEnd := by
  rw [serialize_bigint] at h
  rcases List.mem_cons.mp h with h1 | h2
  · exact Or.inl h1
  rcases List.mem_cons.mp h2 with h3 | h4
  · exact Or.inr (Or.inl h3)
  rcases List.mem_append.mp h4 with h5 | h6
  · exact Or.inr (Or.inr (Or.inl h5))
  · exact Or.inr (Or.inr (Or.inr (List.mem_singleton.mp h6)))

/-- C9: the serialization wire word width is exactly 32 bits: every word
token emitted for a converted native value or for any well-formed signed
value carries a value below 2 to the 32, the sign indicator of the signed
form is a single signed byte value among -1, 0 and 1, and every emitted
element-count hint equals the number of word tokens actually emitted. -/
theorem wire_format_u32 (n : Nat) (x : SBI) (hx : WFS x) :
    (∀ w, Token.u32 w ∈ serialize_biguint (natWords n) → w < 2 ^ 32) ∧
    (∀ hint, Token.seq hint ∈ serialize_biguint (natWords n) →
      hint = (List.filter isU32 (serialize_biguint (natWords n))).length) ∧
    (∀ w, Token.u32 w ∈ serialize_bigint x → w < 2 ^ 32) ∧
    (∀ s, Token.i8 s ∈ serialize_bigint x → s = -1 ∨ s = 0 ∨ s = 1) ∧
    (∀ hint, Token.seq hint ∈ serialize_bigint x →
      hint = (List.filter isU32 (serialize_bigint x)).length) := by
  have hb : (2 : Nat) ^ 32 = wordBase := by decide
  refine ⟨?_, ?_, ?_, ?_, ?_⟩
  · intro w hw
    rcases mem_serialize_biguint hw with h1 | h2 | h3
    · exact absurd h1 (by simp)
    · obtain ⟨d, hd, hdw⟩ := h2
      have : w = d := Token.u32.inj hdw
      rw [this, hb]
      exact (norm_natWords n).1 d hd
    · exact absurd h3 (by simp)
  · intro hint hh
    rcases mem_serialize_biguint hh with h1 | h2 | h3
    · have : hint = (natWords n).length := Token.seq.inj h1
      rw [this, filter_serialize_biguint, List.length_map]
    · obtain ⟨d, _, hdw⟩ := h2
      exact absurd hdw (by simp)
    · exact absurd h3 (by simp)
  · intro w hw
    rcases mem_serialize_bigint hw with h1 | h2 | h3 | h4
    · exact absurd h1 (by simp)
    · exact absurd h2 (by simp)
    · rcases mem_serialize_biguint h3 with g1 | g2 | g3
      · exact absurd g1 (by simp)
      · obtain ⟨d, hd, hdw⟩ := g2
        have : w = d := Token.u32.inj hdw
        rw [this, hb]
        exact hx.2.1.1 d hd
      · exact absurd g3 (by simp)
    · exact absurd h4 (by simp)
  · intro s hs
    rcases mem_serialize_bigint hs with h1 | h2 | h3 | h4
    · exact absurd h1 (by simp)
    · have : s = x.sign := Token.i8.inj h2
      rw [this]
      exact hx.1
    · rcases mem_serialize_biguint h3 with g1 | g2 | g3
      · exact absurd g1 (by simp)
      · obtain ⟨d, _, hdw⟩ := g2
        exact absurd hdw (by simp)
      · exact absurd g3 (by simp)
    · exact absurd h4 (by simp)
  · intro hint hh
    rcases mem_serialize_bigint hh with h1 | h2 | h3 | h4
    · exact absurd h1 (by simp)
    · exact absurd h2 (by simp)
    · rcases mem_serialize_biguint h3 with g1 | g2 | g3
      · have : hint = x.mag.length := Token.seq.inj g1
        rw [this, filter_serialize_bigint, List.length_map]
      · obtain ⟨d, _, hdw⟩ := g2
        exact absurd hdw (by simp)
      · exact absurd g3 (by simp)
    · exact absurd h4 (by simp)

/-- Witness for C9 at the native value 5 and the signed value -5. -/
theorem wire_format_u32_witness :
    (∀ w, Token.u32 w ∈ serialize_biguint (natWords 5) → w < 2 ^ 32) ∧
    (∀ hint, Token.seq hint ∈ serialize_biguint (natWords 5) →
      hint = (List.filter isU32 (serialize_biguint (natWords 5))).length) ∧
    (∀ w, Token.u32 w ∈ serialize_bigint (intSBI (-5)) → w < 2 ^ 32) ∧
    (∀ s, Token.i8 s ∈ serialize_bigint (intSBI (-5)) →
      s = -1 ∨ s = 0 ∨ s = 1) ∧
    (∀ hint, Token.seq hint ∈ serialize_bigint (intSBI (-5)) →
      hint = (List.filter isU32 (serialize_bigint (intSBI (-5)))).length) :=
  wire_format_u32 5 (intSBI (-5)) (wfs_intSBI (-5))
